import Mathlib

/-!
Verification development for the `tingly-agent-shell` repository.

The Python source is embedded shallowly: pure helpers (`_parse_export_command`,
`_expand_env_vars`, quote stripping, the environment-dump parser) become
executable Lean functions on `List Char` / `String`; the stateful `Shell` and
`SessionShell` objects become records, with subprocess behaviour supplied as
explicit oracle arguments (exit status, captured output, read events).

Python `dict[str, str]` is modelled as an insertion-ordered association list:
`dict.get` is first-match lookup, `dict.__setitem__` replaces in place or
appends, matching CPython's ordering semantics.
-/

/-- Environment model: insertion-ordered association list, mirroring a Python
`dict[str, str]` (`os.environ.copy()` and `_env` in the source). -/
abbrev Env := List (String × String)

/-- `dict.get(k)`: value of the first (and, for a well-formed dict, only)
entry with key `k`. -/
def envGet (env : Env) (k : String) : Option String :=
  match env.find? (fun p => p.1 == k) with
  | some p => some p.2
  | none => none

/-- `dict[k] = v`: replace the entry in place when the key is present,
append it otherwise (CPython keeps the original insertion position). -/
def envSet (env : Env) (k v : String) : Env :=
  if env.any (fun p => p.1 == k) then
    env.map (fun p => if p.1 == k then (k, v) else p)
  else
    env ++ [(k, v)]

/-- `base.update(upd)`: fold the updates into `base` left to right. -/
def envUpdate (base upd : Env) : Env :=
  upd.foldl (fun e p => envSet e p.1 p.2) base

/-- Keys of an environment, for well-formedness statements. -/
def envKeys (env : Env) : List String := env.map Prod.fst

/-- A well-formed Python dict: one entry per key. -/
def EnvNodup (env : Env) : Prop := (envKeys env).Nodup

instance (env : Env) : Decidable (EnvNodup env) := by
  unfold EnvNodup; infer_instance

/-! ### Character classes used by the regular expressions in the source

`\w` of Python's `re` module (ASCII range) and `\s`. -/

/-- `\w`: word character (letters, digits, underscore; ASCII fragment of
Python's `\w`, which is all that the repository's commands use). -/
def isWordChar (c : Char) : Bool := c.isAlphanum || c == '_'

/-- `\s`: Python whitespace class (space, tab, newline, CR, VT, FF). -/
def isSpaceChar (c : Char) : Bool :=
  c == ' ' || c == '\t' || c == '\n' || c == '\r' || c == '\x0b' || c == '\x0c'

/-! ### `_expand_env_vars` (src/tingly_agent_shell/__init__.py, lines 124-145)

`re.sub(r'\$\{?(\w+)\}?', replace_var, value)` where `replace_var` returns
`self._env.get(var_name, match.group(0))`.  The scanner walks left to right;
at a `$` it optionally consumes `{`, then a maximal nonempty word run, then an
optional `}`; a defined variable is replaced by its value, an undefined
reference is reproduced verbatim (the whole matched text, braces included).
The fuel argument starts at the length of the input; every step consumes at
least one character, so the fuel is never exhausted on the initial call. -/

def expandGo (env : Env) : Nat → List Char → List Char
  | 0, s => s
  | fuel + 1, s =>
    match s with
    | [] => []
    | '$' :: rest =>
      let braced : Bool × List Char :=
        match rest with
        | '{' :: r => (true, r)
        | _ => (false, rest)
      let name := braced.2.takeWhile isWordChar
      if name.isEmpty then
        '$' :: expandGo env fuel rest
      else
        let afterName := braced.2.drop name.length
        let closed : Bool × List Char :=
          match afterName with
          | '}' :: r => (true, r)
          | _ => (false, afterName)
        match envGet env (String.mk name) with
        | some v => v.toList ++ expandGo env fuel closed.2
        | none =>
          '$' :: ((if braced.1 then ['{'] else []) ++ name ++
            (if closed.1 then ['}'] else [])) ++ expandGo env fuel closed.2
    | c :: rest => c :: expandGo env fuel rest

/-- `_expand_env_vars`: expand `$NAME` / `${NAME}` references against `env`,
leaving undefined references verbatim. -/
def expandEnvVars (env : Env) (value : List Char) : List Char :=
  expandGo env value.length value

/-! ### Quote stripping: `value.strip('"').strip("'")` -/

/-- Python `str.strip(c)` for a single character: remove every leading and
trailing occurrence of `c`. -/
def stripChar (c : Char) (s : List Char) : List Char :=
  ((s.dropWhile (fun d => d == c)).reverse.dropWhile (fun d => d == c)).reverse

/-- `value.strip('"').strip("'")` from `_parse_export_command`. -/
def stripQuotes (s : List Char) : List Char :=
  stripChar '\'' (stripChar '"' s)

/-! ### The three export regular expressions
(src/tingly_agent_shell/__init__.py, lines 105-109)

```
r'export\s+(\w+)="([^"]*)"'
r"export\s+(\w+)='([^']*)'"
r'export\s+(\w+)=([^\s]+?)(?:\s+|$)'
```

Each is compiled to a matcher that attempts a match anchored at the head of
the character list and returns the two capture groups plus the remainder of
the input after the match (where `re.finditer` resumes). -/

/-- The literal characters of the keyword `export`. -/
def exportLit : List Char := ['e', 'x', 'p', 'o', 'r', 't']

/-- Consume an exact literal from the head of the input. -/
def dropPrefixChars : List Char → List Char → Option (List Char)
  | [], s => some s
  | _ :: _, [] => none
  | p :: ps, c :: cs => if c == p then dropPrefixChars ps cs else none

/-- `(l.takeWhile p, l.dropWhile p)`: greedy character-class run. -/
def spanP (p : Char → Bool) (l : List Char) : List Char × List Char :=
  (l.takeWhile p, l.dropWhile p)

/-- Continuation of the patterns after the literal `export`: `\s+(\w+)=`. -/
def matchAfterKeyword (s1 : List Char) : Option (List Char × List Char) :=
  match spanP isSpaceChar s1 with
  | ([], _) => none
  | (_ :: _, s2) =>
    match spanP isWordChar s2 with
    | ([], _) => none
    | (key, s3) =>
      match s3 with
      | '=' :: s4 => some (key, s4)
      | _ => none

/-- Shared head of all three patterns: `export\s+(\w+)=`.
Returns the key capture and the input after the `=`. -/
def matchExportHead (s : List Char) : Option (List Char × List Char) :=
  match dropPrefixChars exportLit s with
  | none => none
  | some s1 => matchAfterKeyword s1

/-- `export\s+(\w+)="([^"]*)"` anchored at the head. -/
def matchDouble (s : List Char) : Option ((List Char × List Char) × List Char) :=
  match matchExportHead s with
  | none => none
  | some (key, s4) =>
    match s4 with
    | '"' :: s5 =>
      match spanP (fun c => !(c == '"')) s5 with
      | (v, '"' :: s6) => some ((key, v), s6)
      | (_, _) => none
    | _ => none

/-- `export\s+(\w+)='([^']*)'` anchored at the head. -/
def matchSingle (s : List Char) : Option ((List Char × List Char) × List Char) :=
  match matchExportHead s with
  | none => none
  | some (key, s4) =>
    match s4 with
    | '\'' :: s5 =>
      match spanP (fun c => !(c == '\'')) s5 with
      | (v, '\'' :: s6) => some ((key, v), s6)
      | (_, _) => none
    | _ => none

/-- `export\s+(\w+)=([^\s]+?)(?:\s+|$)` anchored at the head.  The lazy
`[^\s]+?` followed by `\s+|$` is equivalent to the maximal nonempty run of
non-whitespace characters (the two classes are disjoint); the trailing
`\s+` is consumed by the match, moving the resume point past it. -/
def matchBare (s : List Char) : Option ((List Char × List Char) × List Char) :=
  match matchExportHead s with
  | none => none
  | some (key, s4) =>
    match spanP (fun c => !(isSpaceChar c)) s4 with
    | ([], _) => none
    | (v, s5) => some ((key, v), s5.dropWhile isSpaceChar)

/-- `re.finditer`: scan left to right, trying the matcher at each position;
on a hit, record the captures and resume after the match.  Every successful
match of the three patterns above consumes at least one character, so fuel
equal to the input length makes this total without changing its meaning. -/
def findMatchesFuel (m : List Char → Option ((List Char × List Char) × List Char)) :
    Nat → List Char → List (List Char × List Char)
  | 0, _ => []
  | _ + 1, [] => []
  | fuel + 1, c :: rest =>
    match m (c :: rest) with
    | some (kv, rest') => kv :: findMatchesFuel m fuel rest'
    | none => findMatchesFuel m fuel rest

/-- All matches of a pattern in the input, in textual order. -/
def findMatches (m : List Char → Option ((List Char × List Char) × List Char))
    (s : List Char) : List (List Char × List Char) :=
  findMatchesFuel m s.length s

/-! ### `_parse_export_command` (src/tingly_agent_shell/__init__.py, lines 89-122)

For each of the three patterns in order (double-quoted, single-quoted, bare),
for each match in textual order: strip quotes from the captured value, expand
variable references against the shell's current environment (`self._env`,
which is NOT mutated during the parse), and store into the accumulating
`env_vars` dict. -/

def parseStep (env : Env) (acc : Env) (kv : List Char × List Char) : Env :=
  envSet acc (String.mk kv.1) (String.mk (expandEnvVars env (stripQuotes kv.2)))

/-- The parser on character lists. -/
def parseExportCore (env : Env) (cs : List Char) : Env :=
  ((findMatches matchBare cs).foldl (parseStep env)
    ((findMatches matchSingle cs).foldl (parseStep env)
      ((findMatches matchDouble cs).foldl (parseStep env) [])))

/-- `_parse_export_command`: predicted environment assignments of a command. -/
def parseExportCommand (env : Env) (command : String) : Env :=
  parseExportCore env command.toList

/-! ### Shell data model (src/tingly_agent_shell/__init__.py) -/

/-- `ShellConfig` dataclass of `__init__.py` (lines 15-21).  `workdir = None`
is `Option.none`; Python truthiness of the string field: only `""` is falsy. -/
structure ShellConfig where
  shell_type : String := "bash"
  environment : Env := []
  setup_rc : List String := []
  workdir : Option String := none
deriving Repr, DecidableEq

/-- `ExecuteResult` dataclass (lines 24-31).  `execution_time` is wall-clock
time measured by the runtime; it is carried as an abstract duration. -/
structure ExecuteResult where
  command : String
  returncode : Int
  stdout : String
  stderr : String
  execution_time : Nat
deriving Repr, DecidableEq

/-- The `Shell` object state: configuration, the `_env` dict and the
`_closed` flag (`_process` is always `None` in the source and is omitted). -/
structure Shell where
  config : ShellConfig
  env : Env
  closed : Bool
deriving Repr, DecidableEq

/-- `_run_setup_rc` (lines 72-87): for each setup command, merge its predicted
exports into `_env`; the parse is total, so the `except: pass` is dead. -/
def runSetupRc (env : Env) (scripts : List String) : Env :=
  scripts.foldl (fun e cmd => envUpdate e (parseExportCommand e cmd)) env

/-- `Shell.__init__` (lines 45-70).  `osEnv` stands for `os.environ.copy()`.
With a parent, `_env = os.environ.copy()` updated with `parent._env` — the
`config.environment` field is NOT consulted on this branch; without a parent
it is updated with `config.environment`.  Then `_run_setup_rc` runs on
`config.setup_rc`. -/
def Shell.init (osEnv : Env) (config : ShellConfig) (parentEnv : Option Env) : Shell :=
  let base :=
    match parentEnv with
    | some p => envUpdate osEnv p
    | none => envUpdate osEnv config.environment
  { config := config, env := runSetupRc base config.setup_rc, closed := false }

/-! ### One-shot execution (`Shell.execute`, lines 228-319)

The subprocess itself is external; its behaviour enters the model as an
oracle: either the command completed within the timeout with an exit status
and captured output, or `asyncio.wait_for` timed out (in which case the
output the process had produced so far exists but is discarded by the code,
which kills the process and re-raises the bare `asyncio.TimeoutError`). -/

/-- Oracle for the spawned subprocess of a one-shot execution. -/
inductive OneShotOutcome where
  | completed (returncode : Int) (stdout stderr : String)
  | timedOut (partialStdout partialStderr : String)
deriving Repr, DecidableEq

/-- The exceptions `Shell.execute` / `setenv` / `fork` can raise. -/
inductive ExecError where
  | shellClosed
  | forkClosed
  | timeoutError
  | calledProcessError (returncode : Int) (stdout stderr : String)
deriving Repr, DecidableEq

/-- One line of `env` output: `key, value = line.split('=', 1)` guarded by
`'=' in line` (`_try_sync_with_command`, lines 192-198). -/
def splitFirstEq (line : String) : Option (String × String) :=
  let cs := line.toList
  if cs.any (fun c => c == '=') then
    some (String.mk (cs.takeWhile (fun c => !(c == '='))),
      String.mk ((cs.dropWhile (fun c => !(c == '='))).drop 1))
  else
    none

/-- `_sync_env_from_shell` / `_try_sync_with_command` (lines 147-203): parse
`KEY=VALUE` lines of an environment dump and update `_env`.  `dump = none`
models the (silently tolerated) case that neither `env` nor `printenv` is
available; otherwise the oracle supplies the dump's lines. -/
def syncFromDump (env : Env) : Option (List String) → Env
  | none => env
  | some lines =>
    lines.foldl
      (fun e line =>
        match splitFirstEq line with
        | some kv => envSet e kv.1 kv.2
        | none => e)
      env

/-- The lines a faithful environment dump of `env` consists of. -/
def envLines (env : Env) : List String :=
  env.map (fun p => p.1 ++ "=" ++ p.2)

/-- `Shell.execute` (lines 228-319).  Raises on a closed shell; on timeout
kills the process and re-raises the bare `TimeoutError` (the partial output
of the oracle is discarded); on completion builds the result from the real
exit status, then (with `sync_env`) merges the predicted exports and, when
the status is zero, the dump resync; finally raises
`CalledProcessError` when `check` is set and the status is nonzero.  Returns
the outcome together with the post-call shell state. -/
def Shell.execute (sh : Shell) (command : String) (check sync_env : Bool)
    (outcome : OneShotOutcome) (duration : Nat) (dump : Option (List String)) :
    Except ExecError ExecuteResult × Shell :=
  if sh.closed then (.error .shellClosed, sh)
  else
    match outcome with
    | .timedOut _ _ => (.error .timeoutError, sh)
    | .completed rc out err =>
      let result : ExecuteResult :=
        { command := command, returncode := rc, stdout := out, stderr := err,
          execution_time := duration }
      let env1 :=
        if sync_env then envUpdate sh.env (parseExportCommand sh.env command)
        else sh.env
      let env2 :=
        if sync_env && (rc == 0) then syncFromDump env1 dump else env1
      let sh' : Shell := { sh with env := env2 }
      if check && !(rc == 0) then (.error (.calledProcessError rc out err), sh')
      else (.ok result, sh')

/-! ### Fork (lines 321-353) -/

/-- Python truthiness of the optional `workdir` string: `None` and `""`. -/
def workdirFalsy : Option String → Bool
  | none => true
  | some s => s == ""

/-- The in-place mutation `fork` performs on an explicitly passed config
(lines 334-343): `config.environment` is replaced by the parent `_env`
updated with the override entries, and falsy `shell_type` / `workdir` are
overwritten with the parent's values. -/
def Shell.forkedConfig (sh : Shell) (config : ShellConfig) : ShellConfig :=
  { config with
    environment := envUpdate sh.env config.environment,
    shell_type := if config.shell_type == "" then sh.config.shell_type
      else config.shell_type,
    workdir := if workdirFalsy config.workdir then sh.config.workdir
      else config.workdir }

/-- `Shell.fork` (lines 321-353): rejects a closed shell; otherwise builds
the effective config (mutating an explicitly passed one, or assembling a
fresh one copying the parent's environment and setup scripts) and constructs
the child with `parent := self`.  The effective config is returned alongside
the child, because the source mutates the caller's object. -/
def Shell.fork (sh : Shell) (osEnv : Env) (config : Option ShellConfig) :
    Except ExecError (Shell × ShellConfig) :=
  if sh.closed then .error .forkClosed
  else
    let cfg :=
      match config with
      | some c => sh.forkedConfig c
      | none =>
        { shell_type := sh.config.shell_type, environment := sh.env,
          setup_rc := sh.config.setup_rc, workdir := sh.config.workdir }
    .ok (Shell.init osEnv cfg (some sh.env), cfg)

/-- `Shell.setenv` (lines 355-365): raises on a closed shell. -/
def Shell.setenv (sh : Shell) (key value : String) : Except ExecError Shell :=
  if sh.closed then .error .shellClosed
  else .ok { sh with env := envSet sh.env key value }

/-- `Shell.getenv` (lines 367-378): pure read, no closed check. -/
def Shell.getenv (sh : Shell) (key : String) (dflt : Option String := none) :
    Option String :=
  match envGet sh.env key with
  | some v => some v
  | none => dflt

/-- `Shell.get_all_env` (lines 380-387): a copy of `_env`; no closed check. -/
def Shell.get_all_env (sh : Shell) : Env := sh.env

/-- `Shell.close` (lines 450-456): sets the flag, touches nothing else. -/
def Shell.close (sh : Shell) : Shell := { sh with closed := true }

/-! ### Post-close operation traces (for the closed-shell claims) -/

/-- An operation applied to a `Shell`, with its oracles. -/
inductive ShellOp where
  | execute (command : String) (check sync_env : Bool) (outcome : OneShotOutcome)
      (duration : Nat) (dump : Option (List String))
  | setenv (key value : String)
  | close
deriving Repr

/-- Apply one operation; a raised exception leaves the state unchanged. -/
def Shell.applyOp (sh : Shell) : ShellOp → Shell
  | .execute c ch se oc d du => (Shell.execute sh c ch se oc d du).2
  | .setenv k v =>
    match Shell.setenv sh k v with
    | .ok s => s
    | .error _ => sh
  | .close => Shell.close sh

/-- Apply a sequence of operations in order. -/
def Shell.applyOps (sh : Shell) (ops : List ShellOp) : Shell :=
  ops.foldl Shell.applyOp sh

/-! ### SessionShell (src/tingly_agent_shell/session_shell.py)

`SessionShell` wraps a base shell (`AgentShell` from the absent `base`
module) and owns the persistent child process.  The base shell's state
(`_env`, `_closed`) and its delegated operations are modelled by `Shell`:
`base.py` is not in the sources, and the spec describes the base session
exactly as `__init__.py`'s `Shell` implements it (environment snapshot,
closed flag, invalid-state checks on execute/mutate). -/

/-- One event of the incremental `readline` loop: a line arrived within the
per-read timeout, the stream ended (`b""`), or `asyncio.wait_for` timed out. -/
inductive ReadEvent where
  | line (s : String)
  | eof
  | timeout
deriving Repr, DecidableEq

/-- Python `str.strip()` (default whitespace set). -/
def pyStrip (s : List Char) : List Char :=
  ((s.dropWhile isSpaceChar).reverse.dropWhile isSpaceChar).reverse

/-- Does the list contain the two-character infix `"$ "`? -/
def containsDollarSpace : List Char → Bool
  | '$' :: ' ' :: _ => true
  | _ :: rest => containsDollarSpace rest
  | [] => false

/-- Does the list end with `'$'` followed by `' '`? -/
def endsWithDollarSpace (s : List Char) : Bool :=
  match s.reverse with
  | ' ' :: '$' :: _ => true
  | _ => false

/-- The prompt heuristic of `_execute_on_persistent_process` (line 192):
`line_str.strip().endswith("$ ") or "$ " in line_str`. -/
def promptLike (s : String) : Bool :=
  endsWithDollarSpace (pyStrip s.toList) || containsDollarSpace s.toList

/-- The stdout loop (lines 181-197): collect lines until a prompt-like line
is seen, the stream ends, or a read times out (in which case the partial
output collected so far is kept). -/
def readStdoutLoop : List ReadEvent → List String
  | [] => []
  | .timeout :: _ => []
  | .eof :: _ => []
  | .line s :: rest => s :: (if promptLike s then [] else readStdoutLoop rest)

/-- The stderr drain (lines 199-210): collect lines until the stream ends or
a (0.1 s) read times out. -/
def readDrainLoop : List ReadEvent → List String
  | [] => []
  | .timeout :: _ => []
  | .eof :: _ => []
  | .line s :: rest => s :: readDrainLoop rest

/-- `_execute_on_persistent_process` (lines 148-230): write the command,
run the two read loops, and build the result with the hard-coded
`returncode = 0` (lines 217-219: "For persistent mode, we assume success if
no exception").  In particular a per-read timeout only breaks the loop; the
returned record is indistinguishable from a successful run. -/
def executeOnPersistentProcess (command : String)
    (outEvents errEvents : List ReadEvent) (duration : Nat) : ExecuteResult :=
  { command := command
    returncode := 0
    stdout := String.join (readStdoutLoop outEvents)
    stderr := String.join (readDrainLoop errEvents)
    execution_time := duration }

/-- `SessionShell` state: the base shell and whether `_persistent_process`
is populated. -/
structure SessionShell where
  shell : Shell
  persistentStarted : Bool
deriving Repr, DecidableEq

/-- `SessionShell.execute` (lines 101-146).  There is no closed check: the
persistent process is (re)started whenever `_persistent_process is None`,
the command is sent, and with `sync_env` the predicted exports of the
ORIGINAL command are merged into the base shell's `_env`.

Modelled from the spec: `AgentShell._apply_hooks` lives in the absent
`base` module; per the spec's hook contract it transforms the command/result
through the configured hooks, and for a session with no registered hooks it
is the identity, which is how it is modelled here.  The replay of
`pre_scripts` on a fresh start only performs process I/O
(`_execute_on_persistent_process`) and changes no modelled state. -/
def SessionShell.execute (ss : SessionShell) (command : String)
    (outEvents errEvents : List ReadEvent) (duration : Nat) (sync_env : Bool) :
    ExecuteResult × SessionShell :=
  let started : SessionShell := { ss with persistentStarted := true }
  let result := executeOnPersistentProcess command outEvents errEvents duration
  let shell' :=
    if sync_env then
      { started.shell with
        env := envUpdate started.shell.env
          (parseExportCommand started.shell.env command) }
    else started.shell
  (result, { started with shell := shell' })

/-- `SessionShell.async_close` (lines 232-262): set the base shell's closed
flag; if a persistent process exists, send `exit`, terminate (escalating to
kill), and clear the handle.  Every exception on the way is swallowed, so
the operation is total. -/
def SessionShell.async_close (ss : SessionShell) : SessionShell :=
  { shell := { ss.shell with closed := true }, persistentStarted := false }

/-- `SessionShell.setenv`, reached through `__getattr__` delegation to the
base shell.  Modelled from the spec: `base.AgentShell.setenv` is in the
absent `base` module; the spec's invalid-state contract (mutation on a
closed session is always reported) and the sibling `Shell.setenv`
implementation give its behaviour. -/
def SessionShell.setenv (ss : SessionShell) (key value : String) :
    Except ExecError SessionShell :=
  match Shell.setenv ss.shell key value with
  | .ok s => .ok { ss with shell := s }
  | .error e => .error e

/-! ### Fork isolation model (for the frame claims)

`Shell.fork` builds the child's `_env` from copies (`os.environ.copy()`,
`dict.update`), never sharing a dict object with the parent, so a
parent/child pair is two independent `Shell` values. -/

/-- A parent/child pair produced by `fork()` (no explicit config). -/
structure ShellPair where
  parent : Shell
  child : Shell
deriving Repr

/-- Fork without an explicit config; the error case cannot occur for an open
parent, and the pair keeps both sessions. -/
def forkPair (parent : Shell) (osEnv : Env) : ShellPair :=
  match Shell.fork parent osEnv none with
  | .ok (child, _) => { parent := parent, child := child }
  | .error _ => { parent := parent, child := parent }

/-- `setenv` on the parent of a pair (ignoring the closed error, which does
not change state either). -/
def pairSetenvParent (w : ShellPair) (k v : String) : ShellPair :=
  match Shell.setenv w.parent k v with
  | .ok p => { w with parent := p }
  | .error _ => w

/-- `setenv` on the child of a pair. -/
def pairSetenvChild (w : ShellPair) (k v : String) : ShellPair :=
  match Shell.setenv w.child k v with
  | .ok c => { w with child := c }
  | .error _ => w

/-! ### A grammar of export commands, for the parser claims

Commands consisting of `export NAME=VALUE` assignments (single-quoted,
double-quoted or bare values) separated by single spaces.  The claims about
`_parse_export_command` are settled against commands of this shape. -/

/-- Quoting form of one export assignment. -/
inductive QuoteForm where
  | double
  | single
  | bare
deriving Repr, DecidableEq

/-- One `export key=value` assignment in a given quoting form. -/
structure ExportSeg where
  form : QuoteForm
  key : List Char
  value : List Char
deriving Repr, DecidableEq

/-- The raw token that stands after the `=`. -/
def rawToken (s : ExportSeg) : List Char :=
  match s.form with
  | .double => '"' :: s.value ++ ['"']
  | .single => '\'' :: s.value ++ ['\'']
  | .bare => s.value

/-- Rendered text of one assignment: `export key=token`. -/
def renderSeg (s : ExportSeg) : List Char :=
  exportLit ++ ' ' :: (s.key ++ '=' :: rawToken s)

/-- Rendered command: the assignments in textual order, each followed by a
single space. -/
def renderCmd : List ExportSeg → List Char
  | [] => []
  | s :: rest => renderSeg s ++ ' ' :: renderCmd rest

/-- A syntactically valid variable name for the patterns: nonempty, word
characters only. -/
def goodKey (k : List Char) : Prop :=
  k ≠ [] ∧ ∀ c ∈ k, isWordChar c = true

/-- A value the three patterns treat consistently: no whitespace and no
quote characters. -/
def goodVal (v : List Char) : Prop :=
  ∀ c ∈ v, isSpaceChar c = false ∧ ¬(c = '\'') ∧ ¬(c = '"')

/-- Well-formedness of one assignment (a bare value must be nonempty for the
bare pattern to see it at all). -/
def GoodSeg (s : ExportSeg) : Prop :=
  goodKey s.key ∧ goodVal s.value ∧ (s.form = .bare → s.value ≠ [])

instance (k : List Char) : Decidable (goodKey k) := by unfold goodKey; infer_instance
instance (v : List Char) : Decidable (goodVal v) := by unfold goodVal; infer_instance
instance (s : ExportSeg) : Decidable (GoodSeg s) := by unfold GoodSeg; infer_instance

/-- Continuations a rendered command can leave after a segment boundary:
nothing, or another `export ...` segment. -/
def TOk (t : List Char) : Prop :=
  t = [] ∨ ∃ t', t = exportLit ++ ' ' :: t'

/-- The per-pattern captures of a segment list. -/
def doubleCapture (s : ExportSeg) : Option (List Char × List Char) :=
  match s.form with
  | .double => some (s.key, s.value)
  | _ => none

/-- Captures of the single-quote pattern. -/
def singleCapture (s : ExportSeg) : Option (List Char × List Char) :=
  match s.form with
  | .single => some (s.key, s.value)
  | _ => none

/-- Captures of the bare pattern (it sees every segment, quotes included). -/
def bareCapture (s : ExportSeg) : List Char × List Char :=
  (s.key, rawToken s)

/-- Environment dicts whose keys are unique and free of `=`, as every
environment the shell actually builds is; under this the dump round-trips. -/
def EnvWF (e : Env) : Prop :=
  EnvNodup e ∧ ∀ p ∈ e, ∀ c ∈ p.1.toList, ¬(c = '=')

instance (e : Env) : Decidable (EnvWF e) := by unfold EnvWF; infer_instance

/-! ### Concrete sample data for the claims -/

/-- A single-quote character as a string (kept out of string literals). -/
def squote : String := String.mk ['\'']

/-- A double-quote character as a string. -/
def dquote : String := String.mk ['"']

/-- A fresh shell with empty ambient environment and default config. -/
def shellA : Shell := Shell.init [] {} none

/-- A fresh shell holding one variable `P=p`. -/
def shellB : Shell := Shell.init [] { environment := [("P", "p")] } none

/-- A shell whose setup script exports a self-referencing value. -/
def c4parent : Shell :=
  Shell.init [] { setup_rc := ["export A=" ++ squote ++ "$A-x" ++ squote] } none

/-- Override config with falsy `shell_type` and `workdir`, for the fork
mutation claim. -/
def c9cfg : ShellConfig :=
  { shell_type := "", environment := [("K", "v")], workdir := some "" }

/-- Override config carrying one explicit environment key. -/
def overrideCfg : ShellConfig := { environment := [("K", "v")] }

/-- `export K='a b'`: a single-quoted value containing whitespace. -/
def c5cmd : String := "export K=" ++ squote ++ "a b" ++ squote

/-- `export A='x' export A="p q"`: the textually last assignment uses a
double-quoted value with whitespace. -/
def c6cmd : String :=
  "export A=" ++ squote ++ "x" ++ squote ++ " export A=" ++ dquote ++ "p q" ++ dquote

/-- Mixed-form segments assigning `A` three times (`B` once); the textually
last assignment to `A` is the bare `three`. -/
def c6segs : List ExportSeg :=
  [{ form := .double, key := ['A'], value := ['o', 'n', 'e'] },
   { form := .single, key := ['A'], value := ['t', 'w', 'o'] },
   { form := .bare, key := ['B'], value := ['z'] },
   { form := .bare, key := ['A'], value := ['t', 'h', 'r', 'e', 'e'] }]

/-- A session shell that has been closed by `async_close`. -/
def closedSS : SessionShell :=
  SessionShell.async_close { shell := shellA, persistentStarted := true }

/-- The textually last assignment to `A` among `c6segs`. -/
def c6last : ExportSeg :=
  { form := .bare, key := ['A'], value := ['t', 'h', 'r', 'e', 'e'] }

/-- A fresh shell holding one variable `OTHER=o`. -/
def shellO : Shell := Shell.init [] { environment := [("OTHER", "o")] } none

/-- The key/value of the spec's concrete expansion example. -/
def c5K : List Char := ['K']

/-- `$OTHER-suffix` as a character list. -/
def c5V : List Char := ['$', 'O', 'T', 'H', 'E', 'R', '-', 's', 'u', 'f', 'f', 'i', 'x']

/-! ## Lemmas about the environment model -/

theorem envGet_nil (k : String) : envGet [] k = none := rfl

theorem envGet_cons (p : String × String) (rest : Env) (k : String) :
    envGet (p :: rest) k = if p.1 == k then some p.2 else envGet rest k := by
  unfold envGet
  rw [List.find?_cons]
  by_cases hp : p.1 == k
  · simp [hp]
  · simp [hp]

theorem envGet_map_set_self (e : Env) (k v : String)
    (h : ∃ p ∈ e, p.1 = k) :
    envGet (e.map (fun p => if p.1 == k then (k, v) else p)) k = some v := by
  induction e with
  | nil => simp at h
  | cons p rest ih =>
    rw [List.map_cons, envGet_cons]
    by_cases hp : p.1 == k
    · rw [if_pos hp]
      have : ((k, v).1 == k) = true := by simp
      rw [if_pos this]
    · rw [if_neg hp]
      have h' : ∃ q ∈ rest, q.1 = k := by
        rcases h with ⟨q, hq, hqk⟩
        rcases List.mem_cons.mp hq with rfl | hq'
        · exact absurd (by simp [hqk]) hp
        · exact ⟨q, hq', hqk⟩
      rw [if_neg hp]
      exact ih h'

theorem envGet_map_set_other (e : Env) (k v k' : String) (h : ¬(k' = k)) :
    envGet (e.map (fun p => if p.1 == k then (k, v) else p)) k' = envGet e k' := by
  induction e with
  | nil => rfl
  | cons p rest ih =>
    rw [List.map_cons, envGet_cons, envGet_cons]
    by_cases hp : p.1 == k
    · rw [if_pos hp]
      have hpk : p.1 = k := by simpa using hp
      have hc1 : ¬((k, v).1 == k') = true := by
        simp
        intro hk
        exact h hk.symm
      have hc2 : ¬(p.1 == k') = true := by
        simp [hpk]
        intro hk
        exact h hk.symm
      rw [if_neg hc1, if_neg hc2]
      exact ih
    · rw [if_neg hp]
      by_cases hq : p.1 == k'
      · rw [if_pos hq, if_pos hq]
      · rw [if_neg hq, if_neg hq]
        exact ih

theorem envGet_append_single_self (e : Env) (k v : String)
    (h : ∀ p ∈ e, ¬(p.1 = k)) :
    envGet (e ++ [(k, v)]) k = some v := by
  induction e with
  | nil =>
    rw [List.nil_append, envGet_cons]
    have : ((k, v).1 == k) = true := by simp
    rw [if_pos this]
  | cons p rest ih =>
    have hp : ¬(p.1 == k) = true := by
      simpa using h p (List.mem_cons_self p rest)
    rw [List.cons_append, envGet_cons, if_neg hp]
    exact ih (fun q hq => h q (List.mem_cons_of_mem p hq))

theorem envGet_append_single_other (e : Env) (k v k' : String) (h : ¬(k' = k)) :
    envGet (e ++ [(k, v)]) k' = envGet e k' := by
  induction e with
  | nil =>
    rw [List.nil_append, envGet_cons, envGet_nil]
    have : ¬((k, v).1 == k') = true := by
      simp
      intro hk
      exact h hk.symm
    rw [if_neg this]
  | cons p rest ih =>
    rw [List.cons_append, envGet_cons, envGet_cons]
    by_cases hq : p.1 == k'
    · rw [if_pos hq, if_pos hq]
    · rw [if_neg hq, if_neg hq]
      exact ih

theorem envGet_envSet_self (e : Env) (k v : String) :
    envGet (envSet e k v) k = some v := by
  unfold envSet
  by_cases ha : e.any (fun p => p.1 == k)
  · simp only [ha, if_true]
    apply envGet_map_set_self
    rcases List.any_eq_true.mp ha with ⟨p, hp, hpk⟩
    exact ⟨p, hp, by simpa using hpk⟩
  · simp only [ha, if_false, Bool.false_eq_true]
    apply envGet_append_single_self
    intro p hp hpk
    exact ha (List.any_eq_true.mpr ⟨p, hp, by simp [hpk]⟩)

theorem envGet_envSet_other (e : Env) (k k' v : String) (h : ¬(k' = k)) :
    envGet (envSet e k v) k' = envGet e k' := by
  unfold envSet
  by_cases ha : e.any (fun p => p.1 == k)
  · simp only [ha, if_true]
    exact envGet_map_set_other e k v k' h
  · simp only [ha, if_false, Bool.false_eq_true]
    exact envGet_append_single_other e k v k' h

theorem envGet_eq_none_iff (e : Env) (k : String) :
    envGet e k = none ↔ ∀ p ∈ e, ¬(p.1 = k) := by
  induction e with
  | nil => simp [envGet_nil]
  | cons p rest ih =>
    rw [envGet_cons]
    by_cases hp : p.1 == k
    · have hpk : p.1 = k := by simpa using hp
      simp [hp, hpk]
    · have hpk : ¬(p.1 = k) := by simpa using hp
      simp [hp, hpk, ih]

theorem envGet_eq_none_of_not_mem_keys (e : Env) (k : String)
    (h : ¬ k ∈ envKeys e) : envGet e k = none := by
  rw [envGet_eq_none_iff]
  intro p hp hpk
  exact h (hpk ▸ List.mem_map_of_mem Prod.fst hp)

theorem envGet_envUpdate_none (a b : Env) (k : String) (h : envGet b k = none) :
    envGet (envUpdate a b) k = envGet a k := by
  induction b generalizing a with
  | nil => rfl
  | cons p rest ih =>
    rw [envGet_eq_none_iff] at h
    have hp : ¬(p.1 = k) := h p (List.mem_cons_self p rest)
    have hrest : envGet rest k = none := by
      rw [envGet_eq_none_iff]
      intro q hq
      exact h q (List.mem_cons_of_mem p hq)
    show envGet (envUpdate (envSet a p.1 p.2) rest) k = envGet a k
    rw [ih _ hrest, envGet_envSet_other a p.1 k p.2 (fun hk => hp hk.symm)]

theorem envGet_envUpdate_some (a b : Env) (k : String) (v : String)
    (hnd : EnvNodup b) (h : envGet b k = some v) :
    envGet (envUpdate a b) k = some v := by
  induction b generalizing a with
  | nil => simp [envGet] at h
  | cons p rest ih =>
    have hnd' : ¬ p.1 ∈ envKeys rest ∧ EnvNodup rest := by
      have := hnd
      unfold EnvNodup envKeys at this ⊢
      simpa [List.nodup_cons] using this
    by_cases hp : p.1 == k
    · have hpk : p.1 = k := by simpa using hp
      have hv : v = p.2 := by
        unfold envGet at h
        simp [List.find?_cons, hp] at h
        exact h.symm
      have hrest : envGet rest k = none :=
        envGet_eq_none_of_not_mem_keys rest k (hpk ▸ hnd'.1)
      show envGet (envUpdate (envSet a p.1 p.2) rest) k = some v
      rw [envGet_envUpdate_none _ _ _ hrest, hpk, hv, envGet_envSet_self]
    · have hrest : envGet rest k = some v := by
        unfold envGet at h ⊢
        simpa [List.find?_cons, hp] using h
      exact ih (envSet a p.1 p.2) hnd'.2 hrest

/-! ## Claim theorems: the straightforward claims -/

/-- Any operation applied to a closed shell leaves its state unchanged. -/
theorem applyOp_of_closed (sh : Shell) (h : sh.closed = true) (op : ShellOp) :
    sh.applyOp op = sh := by
  cases op with
  | execute c ch se oc d du => simp [Shell.applyOp, Shell.execute, h]
  | setenv k v => simp [Shell.applyOp, Shell.setenv, h]
  | close =>
    show Shell.close sh = sh
    cases sh with
    | mk cfg env closed => cases closed <;> simp_all [Shell.close]

/-- A whole trace of operations on a closed shell leaves it unchanged. -/
theorem applyOps_of_closed (sh : Shell) (h : sh.closed = true) (ops : List ShellOp) :
    sh.applyOps ops = sh := by
  induction ops with
  | nil => rfl
  | cons op rest ih =>
    show (sh.applyOp op).applyOps rest = sh
    rw [applyOp_of_closed sh h op, ih]

/-- C8: close is idempotent for both the one-shot `Shell.close` (it only
sets the flag) and `SessionShell.async_close` (the second call finds the
flag set and no live process, and changes nothing); neither can throw. -/
theorem c8_close_idempotent : ∀ (sh : Shell) (ss : SessionShell),
    Shell.close (Shell.close sh) = Shell.close sh ∧
    SessionShell.async_close (SessionShell.async_close ss) =
      SessionShell.async_close ss := by
  intro sh ss
  exact ⟨rfl, rfl⟩

/-- C9: fork with an explicit config hands back a mutated config object:
its `environment` is the parent `_env` updated with the override entries,
falsy `shell_type` / `workdir` are overwritten with the parent's values,
and the child is built from exactly this mutated config. -/
theorem c9_fork_mutates_config (sh : Shell) (cfg : ShellConfig) (osEnv : Env)
    (h : sh.closed = false) :
    Shell.fork sh osEnv (some cfg) =
      .ok (Shell.init osEnv (Shell.forkedConfig sh cfg) (some sh.env),
        Shell.forkedConfig sh cfg) ∧
    (Shell.forkedConfig sh cfg).environment = envUpdate sh.env cfg.environment ∧
    (Shell.forkedConfig sh cfg).shell_type =
      (if cfg.shell_type == "" then sh.config.shell_type else cfg.shell_type) ∧
    (Shell.forkedConfig sh cfg).workdir =
      (if workdirFalsy cfg.workdir then sh.config.workdir else cfg.workdir) ∧
    (Shell.forkedConfig sh cfg).setup_rc = cfg.setup_rc := by
  refine ⟨?_, rfl, rfl, rfl, rfl⟩
  simp [Shell.fork, h]

theorem c9_fork_mutates_config_witness :
    shellA.closed = false ∧
    (Shell.fork shellA [] (some c9cfg) =
        .ok (Shell.init [] (Shell.forkedConfig shellA c9cfg) (some shellA.env),
          Shell.forkedConfig shellA c9cfg) ∧
      (Shell.forkedConfig shellA c9cfg).environment =
        envUpdate shellA.env c9cfg.environment ∧
      (Shell.forkedConfig shellA c9cfg).shell_type =
        (if c9cfg.shell_type == "" then shellA.config.shell_type
          else c9cfg.shell_type) ∧
      (Shell.forkedConfig shellA c9cfg).workdir =
        (if workdirFalsy c9cfg.workdir then shellA.config.workdir
          else c9cfg.workdir) ∧
      (Shell.forkedConfig shellA c9cfg).setup_rc = c9cfg.setup_rc) :=
  ⟨rfl, c9_fork_mutates_config shellA c9cfg [] rfl⟩

/-- C10: after `close()` the read-only accessors `getenv` / `get_all_env`
still answer (they are pure functions of the state and never raise), and no
trace of subsequent operations on the closed shell can change what they
return: every value is the one held at close time. -/
theorem c10_accessors_after_close (sh : Shell) (ops : List ShellOp) (k : String) :
    Shell.getenv (Shell.applyOps (Shell.close sh) ops) k = Shell.getenv sh k ∧
    Shell.get_all_env (Shell.applyOps (Shell.close sh) ops) =
      Shell.get_all_env sh := by
  have h : (Shell.close sh).closed = true := rfl
  rw [applyOps_of_closed _ h]
  exact ⟨rfl, rfl⟩

/-- C3: the override environment passed to fork never reaches the child.
`fork` computes the merged environment and stores it into the config, but
`Shell.__init__` ignores `config.environment` whenever a parent is given, so
the child of a fresh parent answers `none` for the override key `K` even
though the mutated config records `K = v`. -/
theorem c3_override_env_dropped :
    Shell.fork shellA [] (some overrideCfg) =
      .ok (Shell.init [] (Shell.forkedConfig shellA overrideCfg) (some shellA.env),
        Shell.forkedConfig shellA overrideCfg) ∧
    (Shell.forkedConfig shellA overrideCfg).environment = [("K", "v")] ∧
    Shell.getenv
      (Shell.init [] (Shell.forkedConfig shellA overrideCfg) (some shellA.env))
      "K" = none := by
  refine ⟨rfl, rfl, ?_⟩
  decide

/-- C1: exit-status fidelity holds in one-shot mode (`Shell.execute` copies
the real status into the result) but fails in persistent mode: the driver
returns the hard-coded `returncode = 0` for `exit 42`. -/
theorem c1_exit_status :
    (executeOnPersistentProcess "exit 42" [ReadEvent.eof] [] 0).returncode = 0 ∧
    (Shell.execute shellA "exit 42" false true
        (OneShotOutcome.completed 42 "" "") 0 none).1 =
      .ok { command := "exit 42", returncode := 42, stdout := "", stderr := "",
            execution_time := 0 } := by
  exact ⟨rfl, rfl⟩

/-- C2: on timeout, one-shot mode raises the bare `TimeoutError`, discarding
whatever output the process produced (the outcome is identical for different
captured outputs), while persistent mode returns the partial output inside a
normal result whose `returncode` is 0 — indistinguishable from success. -/
theorem c2_timeout_behaviour :
    (executeOnPersistentProcess "sleep 5"
      [ReadEvent.line "late output\n", ReadEvent.timeout] [] 0).returncode = 0 ∧
    (executeOnPersistentProcess "sleep 5"
      [ReadEvent.line "late output\n", ReadEvent.timeout] [] 0).stdout =
        "late output\n" ∧
    Shell.execute shellA "sleep 5" false true
        (OneShotOutcome.timedOut "late output" "") 0 none =
      (.error ExecError.timeoutError, shellA) ∧
    Shell.execute shellA "sleep 5" false true
        (OneShotOutcome.timedOut "different output" "x") 0 none =
      (.error ExecError.timeoutError, shellA) := by
  refine ⟨rfl, by decide, rfl, rfl⟩

/-- C7 fails on `SessionShell`: executing on a closed session is not
rejected; the driver restarts the persistent process and runs the command,
returning a normal result. -/
theorem c7_counterexample :
    closedSS.shell.closed = true ∧
    (SessionShell.execute closedSS
        "echo hi" [ReadEvent.line "hi\n", ReadEvent.timeout] [] 0 true).1 =
      { command := "echo hi", returncode := 0, stdout := "hi\n", stderr := "",
        execution_time := 0 } ∧
    (SessionShell.execute closedSS
        "echo hi" [ReadEvent.line "hi\n", ReadEvent.timeout] [] 0
        true).2.persistentStarted = true := by
  refine ⟨rfl, by decide, rfl⟩

/-- C7 amended: on a closed session, `Shell.execute`, `Shell.setenv` and
`Shell.fork` raise, and so does `SessionShell.setenv` (delegated to the base
shell); but `SessionShell.execute` is carried out normally, its result being
exactly the persistent-driver result of the command. -/
theorem c7_amended (sh : Shell) (ss : SessionShell) (h : sh.closed = true)
    (hss : ss.shell.closed = true) (cmd k v : String) (check se : Bool)
    (oc : OneShotOutcome) (d : Nat) (dump : Option (List String)) (osEnv : Env)
    (cfg : Option ShellConfig) (outE errE : List ReadEvent) :
    Shell.execute sh cmd check se oc d dump = (.error .shellClosed, sh) ∧
    Shell.setenv sh k v = .error .shellClosed ∧
    Shell.fork sh osEnv cfg = .error .forkClosed ∧
    SessionShell.setenv ss k v = .error .shellClosed ∧
    (SessionShell.execute ss cmd outE errE d true).1 =
      executeOnPersistentProcess cmd outE errE d := by
  refine ⟨?_, ?_, ?_, ?_, rfl⟩
  · simp [Shell.execute, h]
  · simp [Shell.setenv, h]
  · simp [Shell.fork, h]
  · simp [SessionShell.setenv, Shell.setenv, hss]

theorem c7_amended_witness :
    (Shell.close shellA).closed = true ∧
    closedSS.shell.closed = true ∧
    (Shell.execute (Shell.close shellA) "pwd" false true
        (OneShotOutcome.completed 0 "" "") 0 none =
      (.error .shellClosed, Shell.close shellA) ∧
    Shell.setenv (Shell.close shellA) "k" "v" = .error .shellClosed ∧
    Shell.fork (Shell.close shellA) [] none = .error .forkClosed ∧
    SessionShell.setenv closedSS "k" "v" = .error .shellClosed ∧
    (SessionShell.execute closedSS "pwd" [] [] 0 true).1 =
      executeOnPersistentProcess "pwd" [] [] 0) :=
  ⟨rfl, rfl,
    c7_amended (Shell.close shellA) closedSS
      rfl rfl "pwd" "k" "v" false true (OneShotOutcome.completed 0 "" "") 0
      none [] none [] []⟩

/-- C4 fails as stated: forking re-runs the parent's `setup_rc` export
predictions over the inherited snapshot, so a self-referencing setup export
gives the child a different value for `A` than the parent held at fork
time. -/
theorem c4_counterexample :
    Shell.getenv c4parent "A" = some "$A-x" ∧
    Shell.getenv (forkPair c4parent []).child "A" = some "$A-x-x" ∧
    ¬ Shell.getenv (forkPair c4parent []).child "A" = Shell.getenv c4parent "A" := by
  refine ⟨by decide, by decide, by decide⟩

/-- C4 amended: for a parent whose configuration carries no `setup_rc`
scripts, the forked child immediately answers the parent's value for every
variable the parent holds; and the two sessions of any pair are fully
independent: `setenv` on one never changes any `getenv` answer on the
other. -/
theorem c4_amended (parent : Shell) (osEnv : Env)
    (hopen : parent.closed = false) (hrc : parent.config.setup_rc = [])
    (hnd : EnvNodup parent.env) :
    (∀ k v, envGet parent.env k = some v →
      Shell.getenv (forkPair parent osEnv).child k = some v) ∧
    (∀ (w : ShellPair) (k v key : String),
      Shell.getenv (pairSetenvChild w k v).parent key =
        Shell.getenv w.parent key ∧
      Shell.getenv (pairSetenvParent w k v).child key =
        Shell.getenv w.child key) := by
  constructor
  · intro k v hkv
    have hchild : (forkPair parent osEnv).child =
        Shell.init osEnv
          { shell_type := parent.config.shell_type, environment := parent.env,
            setup_rc := parent.config.setup_rc,
            workdir := parent.config.workdir } (some parent.env) := by
      simp [forkPair, Shell.fork, hopen]
    rw [hchild]
    show Shell.getenv
      { config := _, env := runSetupRc (envUpdate osEnv parent.env)
          parent.config.setup_rc, closed := false } k = some v
    rw [hrc]
    show (match envGet (envUpdate osEnv parent.env) k with
      | some w => some w
      | none => none) = some v
    rw [envGet_envUpdate_some osEnv parent.env k v hnd hkv]
  · intro w k v key
    have h1 : (pairSetenvChild w k v).parent = w.parent := by
      unfold pairSetenvChild
      cases Shell.setenv w.child k v <;> rfl
    have h2 : (pairSetenvParent w k v).child = w.child := by
      unfold pairSetenvParent
      cases Shell.setenv w.parent k v <;> rfl
    rw [h1, h2]
    exact ⟨rfl, rfl⟩

theorem c4_amended_witness :
    shellB.closed = false ∧ shellB.config.setup_rc = [] ∧ EnvNodup shellB.env ∧
    envGet shellB.env "P" = some "p" ∧
    Shell.getenv (forkPair shellB []).child "P" = some "p" :=
  ⟨rfl, rfl, by decide, by decide,
    (c4_amended shellB [] rfl rfl (by decide)).1 "P" "p" (by decide)⟩

/-! ## Lemmas about the regular-expression scanners -/

theorem takeWhileAll (p : Char → Bool) (xs : List Char)
    (h : ∀ c ∈ xs, p c = true) : xs.takeWhile p = xs := by
  induction xs with
  | nil => rfl
  | cons c rest ih =>
    simp [List.takeWhile_cons, h c (List.mem_cons_self c rest),
      ih (fun d hd => h d (List.mem_cons_of_mem c hd))]

theorem dropWhileAll (p : Char → Bool) (xs : List Char)
    (h : ∀ c ∈ xs, p c = true) : xs.dropWhile p = [] := by
  induction xs with
  | nil => rfl
  | cons c rest ih =>
    simp [List.dropWhile_cons, h c (List.mem_cons_self c rest),
      ih (fun d hd => h d (List.mem_cons_of_mem c hd))]

theorem takeWhileStop (p : Char → Bool) (xs : List Char) (y : Char)
    (r : List Char) (h : ∀ c ∈ xs, p c = true) (hy : p y = false) :
    (xs ++ y :: r).takeWhile p = xs := by
  induction xs with
  | nil => simp [List.takeWhile_cons, hy]
  | cons c rest ih =>
    rw [List.cons_append]
    simp [List.takeWhile_cons, h c (List.mem_cons_self c rest),
      ih (fun d hd => h d (List.mem_cons_of_mem c hd))]

theorem dropWhileStop (p : Char → Bool) (xs : List Char) (y : Char)
    (r : List Char) (h : ∀ c ∈ xs, p c = true) (hy : p y = false) :
    (xs ++ y :: r).dropWhile p = y :: r := by
  induction xs with
  | nil => simp [List.dropWhile_cons, hy]
  | cons c rest ih =>
    rw [List.cons_append]
    simp [List.dropWhile_cons, h c (List.mem_cons_self c rest),
      ih (fun d hd => h d (List.mem_cons_of_mem c hd))]

theorem spanPAll (p : Char → Bool) (xs : List Char)
    (h : ∀ c ∈ xs, p c = true) : spanP p xs = (xs, []) := by
  unfold spanP
  rw [takeWhileAll p xs h, dropWhileAll p xs h]

theorem spanPStop (p : Char → Bool) (xs : List Char) (y : Char) (r : List Char)
    (h : ∀ c ∈ xs, p c = true) (hy : p y = false) :
    spanP p (xs ++ y :: r) = (xs, y :: r) := by
  unfold spanP
  rw [takeWhileStop p xs y r h hy, dropWhileStop p xs y r h hy]

theorem dropPrefixChars_append_self (p s : List Char) :
    dropPrefixChars p (p ++ s) = some s := by
  induction p with
  | nil => rfl
  | cons c rest ih => simp [dropPrefixChars, ih]

theorem dropPrefixChars_eq_some (p s r : List Char)
    (h : dropPrefixChars p s = some r) : s = p ++ r := by
  induction p generalizing s with
  | nil =>
    simp [dropPrefixChars] at h
    simp [h]
  | cons c rest ih =>
    cases s with
    | nil => simp [dropPrefixChars] at h
    | cons d s' =>
      by_cases hd : d == c
      · have : d = c := by simpa using hd
        subst this
        simp only [dropPrefixChars, hd, if_true] at h
        rw [List.cons_append, ih s' h]
      · simp [dropPrefixChars, hd] at h

theorem space_not_word (c : Char) (h : isSpaceChar c = true) :
    isWordChar c = false := by
  have h' : c = ' ' ∨ c = '\t' ∨ c = '\n' ∨ c = '\r' ∨ c = '\x0b' ∨ c = '\x0c' := by
    simpa [isSpaceChar, or_assoc] using h
  rcases h' with rfl | rfl | rfl | rfl | rfl | rfl <;> decide

theorem word_not_space (c : Char) (h : isWordChar c = true) :
    isSpaceChar c = false := by
  cases hs : isSpaceChar c with
  | false => rfl
  | true => rw [space_not_word c hs] at h; cases h

/-! ### Success of the shared head on a well-formed segment start -/

theorem matchAfterKeyword_at (K r : List Char) (hK : goodKey K) :
    matchAfterKeyword (' ' :: (K ++ '=' :: r)) = some (K, r) := by
  obtain ⟨hne, hword⟩ := hK
  cases K with
  | nil => cases hne rfl
  | cons k0 K' =>
    have hk0 : isSpaceChar k0 = false :=
      word_not_space k0 (hword k0 (List.mem_cons_self k0 K'))
    have hsp : spanP isSpaceChar (' ' :: (k0 :: K' ++ '=' :: r)) =
        ([' '], k0 :: K' ++ '=' :: r) := by
      have := spanPStop isSpaceChar [' '] k0 (K' ++ '=' :: r) (by decide) hk0
      simpa using this
    have hkey : spanP isWordChar (k0 :: K' ++ '=' :: r) =
        (k0 :: K', '=' :: r) := by
      have := spanPStop isWordChar (k0 :: K') '=' r
        (fun c hc => hword c hc) (by decide)
      simpa using this
    simp only [matchAfterKeyword, hsp, hkey]

theorem matchExportHead_at (K r : List Char) (hK : goodKey K) :
    matchExportHead (exportLit ++ ' ' :: (K ++ '=' :: r)) = some (K, r) := by
  unfold matchExportHead
  rw [dropPrefixChars_append_self]
  exact matchAfterKeyword_at K r hK

/-! ### Failure of the shared head away from a segment start -/

theorem matchAfterKeyword_nil : matchAfterKeyword [] = none := rfl

theorem matchAfterKeyword_nonspace_head (c : Char) (r : List Char)
    (h : isSpaceChar c = false) : matchAfterKeyword (c :: r) = none := by
  unfold matchAfterKeyword
  have : spanP isSpaceChar (c :: r) = ([], c :: r) := by
    unfold spanP
    rw [List.takeWhile_cons, List.dropWhile_cons, h]
    simp
  rw [this]

theorem matchAfterKeyword_space_tok (t : List Char) (ht : TOk t) :
    matchAfterKeyword (' ' :: t) = none := by
  rcases ht with rfl | ⟨t', rfl⟩
  · rfl
  · have hsp : spanP isSpaceChar (' ' :: (exportLit ++ ' ' :: t')) =
        ([' '], exportLit ++ ' ' :: t') := by
      have := spanPStop isSpaceChar [' '] 'e' (['x', 'p', 'o', 'r', 't'] ++ ' ' :: t')
        (by decide) (by decide)
      simpa [exportLit] using this
    have hkey : spanP isWordChar (exportLit ++ ' ' :: t') =
        (exportLit, ' ' :: t') := by
      exact spanPStop isWordChar exportLit ' ' t' (by decide) (by decide)
    simp only [matchAfterKeyword, hsp, hkey]
    rfl

theorem matchExportHead_fail_head (c : Char) (r : List Char) (h : ¬(c = 'e')) :
    matchExportHead (c :: r) = none := by
  unfold matchExportHead
  have : dropPrefixChars exportLit (c :: r) = none := by
    have hc : (c == 'e') = false := by simpa using h
    simp [exportLit, dropPrefixChars, hc]
  rw [this]

/-- A match of the shared head cannot start inside a run of non-whitespace
characters followed by a non-whitespace character that is not one of the
letters of `export` (such as `=`, `"` or `'`): either the literal `export`
fails, or no whitespace follows it. -/
theorem matchExportHead_fail_nonspace_run (V2 : List Char) (q : Char)
    (r : List Char) (hv : ∀ c ∈ V2, isSpaceChar c = false)
    (hq1 : isSpaceChar q = false) (hq2 : ¬ q ∈ exportLit) :
    matchExportHead (V2 ++ q :: r) = none := by
  unfold matchExportHead
  cases hdp : dropPrefixChars exportLit (V2 ++ q :: r) with
  | none => rfl
  | some s1 =>
    have heq : V2 ++ q :: r = exportLit ++ s1 :=
      dropPrefixChars_eq_some exportLit (V2 ++ q :: r) s1 hdp
    rcases List.append_eq_append_iff.mp heq with ⟨m, hm1, hm2⟩ | ⟨m, hm1, hm2⟩
    · cases m with
      | nil =>
        simp at hm2
        rw [← hm2]
        exact matchAfterKeyword_nonspace_head q r hq1
      | cons x m' =>
        have hx : x = q := by
          have := hm2
          simp [List.cons_append] at this
          exact this.1.symm
        have hxe : x ∈ exportLit := by
          rw [hm1]
          exact List.mem_append_right V2 (List.mem_cons_self x m')
        exact absurd (hx ▸ hxe) hq2
    · cases m with
      | nil =>
        simp at hm2
        rw [hm2]
        exact matchAfterKeyword_nonspace_head q r hq1
      | cons x m' =>
        have hxv : x ∈ V2 := by
          rw [hm1]
          exact List.mem_append_right exportLit (List.mem_cons_self x m')
        rw [hm2]
        exact matchAfterKeyword_nonspace_head x (m' ++ q :: r) (hv x hxv)

theorem matchExportHead_fail_space_run (V2 : List Char) (t : List Char)
    (hv : ∀ c ∈ V2, isSpaceChar c = false) (ht : TOk t) :
    matchExportHead (V2 ++ ' ' :: t) = none := by
  unfold matchExportHead
  cases hdp : dropPrefixChars exportLit (V2 ++ ' ' :: t) with
  | none => rfl
  | some s1 =>
    have heq : V2 ++ ' ' :: t = exportLit ++ s1 :=
      dropPrefixChars_eq_some exportLit (V2 ++ ' ' :: t) s1 hdp
    rcases List.append_eq_append_iff.mp heq with ⟨m, hm1, hm2⟩ | ⟨m, hm1, hm2⟩
    · cases m with
      | nil =>
        simp at hm2
        rw [← hm2]
        exact matchAfterKeyword_space_tok t ht
      | cons x m' =>
        have hx : x = ' ' := by
          have := hm2
          simp [List.cons_append] at this
          exact this.1.symm
        have hxe : x ∈ exportLit := by
          rw [hm1]
          exact List.mem_append_right V2 (List.mem_cons_self x m')
        rw [hx] at hxe
        exact absurd hxe (by decide)
    · cases m with
      | nil =>
        simp at hm2
        rw [hm2]
        exact matchAfterKeyword_space_tok t ht
      | cons x m' =>
        have hxv : x ∈ V2 := by
          rw [hm1]
          exact List.mem_append_right exportLit (List.mem_cons_self x m')
        rw [hm2]
        exact matchAfterKeyword_nonspace_head x (m' ++ ' ' :: t) (hv x hxv)

/-! ### The scanner `findMatchesFuel`: stepping lemmas -/

theorem findMF_nil (m : List Char → Option ((List Char × List Char) × List Char))
    (fuel : Nat) : findMatchesFuel m fuel [] = [] := by
  cases fuel <;> rfl

theorem findMF_cons_some
    (m : List Char → Option ((List Char × List Char) × List Char))
    (c : Char) (r : List Char) (fuel : Nat) (kv : List Char × List Char)
    (rest' : List Char) (h : m (c :: r) = some (kv, rest')) :
    findMatchesFuel m (fuel + 1) (c :: r) =
      kv :: findMatchesFuel m fuel rest' := by
  simp [findMatchesFuel, h]

theorem findMF_cons_none
    (m : List Char → Option ((List Char × List Char) × List Char))
    (c : Char) (r : List Char) (fuel : Nat) (h : m (c :: r) = none) :
    findMatchesFuel m (fuel + 1) (c :: r) = findMatchesFuel m fuel r := by
  simp [findMatchesFuel, h]

/-- Scanning skips over a region at whose every position the matcher fails. -/
theorem findMF_skip
    (m : List Char → Option ((List Char × List Char) × List Char))
    (xs r : List Char)
    (H : ∀ ys, ¬(ys = []) → ys <:+ xs → m (ys ++ r) = none) :
    ∀ fuel, findMatchesFuel m (xs.length + fuel) (xs ++ r) =
      findMatchesFuel m fuel r := by
  induction xs with
  | nil => intro fuel; simp
  | cons x xs' ih =>
    intro fuel
    have h0 : m ((x :: xs') ++ r) = none :=
      H (x :: xs') (by simp) (List.suffix_refl _)
    rw [List.cons_append] at h0
    have hlen : (x :: xs').length + fuel = (xs'.length + fuel) + 1 := by
      simp [List.length_cons]
      omega
    rw [List.cons_append, hlen, findMF_cons_none m x (xs' ++ r) _ h0]
    exact ih (fun ys hne hsuf => H ys hne (hsuf.trans (List.suffix_cons x xs'))) fuel

/-- Decomposition of the suffixes of an appended list. -/
theorem suffix_append_cases (ys a b : List Char) (h : ys <:+ a ++ b) :
    ys <:+ b ∨ ∃ a2, a2 <:+ a ∧ ¬(a2 = []) ∧ ys = a2 ++ b := by
  obtain ⟨pre, hpre⟩ := h
  rcases List.append_eq_append_iff.mp hpre with ⟨m, hm1, hm2⟩ | ⟨m, hm1, hm2⟩
  · cases m with
    | nil => left; simp at hm2; exact hm2 ▸ List.suffix_refl b
    | cons x m' =>
      right
      exact ⟨x :: m', ⟨pre, hm1.symm⟩, by simp, hm2⟩
  · left
    exact ⟨m, hm2.symm⟩

/-! ### The three matchers at a segment start, and away from one -/

theorem matchDouble_of_head_none (s : List Char) (h : matchExportHead s = none) :
    matchDouble s = none := by
  simp [matchDouble, h]

theorem matchSingle_of_head_none (s : List Char) (h : matchExportHead s = none) :
    matchSingle s = none := by
  simp [matchSingle, h]

theorem matchBare_of_head_none (s : List Char) (h : matchExportHead s = none) :
    matchBare s = none := by
  simp [matchBare, h]

theorem matchDouble_at (K v r : List Char) (hK : goodKey K)
    (hv : ∀ c ∈ v, ¬(c = '"')) :
    matchDouble (exportLit ++ ' ' :: (K ++ '=' :: ('"' :: (v ++ '"' :: r)))) =
      some ((K, v), r) := by
  have hspan : spanP (fun c => !(c == '"')) (v ++ '"' :: r) = (v, '"' :: r) :=
    spanPStop _ v '"' r (fun c hc => by simpa using hv c hc) (by decide)
  simp only [matchDouble, matchExportHead_at K ('"' :: (v ++ '"' :: r)) hK, hspan]

theorem matchSingle_at (K v r : List Char) (hK : goodKey K)
    (hv : ∀ c ∈ v, ¬(c = '\'')) :
    matchSingle (exportLit ++ ' ' :: (K ++ '=' :: ('\'' :: (v ++ '\'' :: r)))) =
      some ((K, v), r) := by
  have hspan : spanP (fun c => !(c == '\'')) (v ++ '\'' :: r) = (v, '\'' :: r) :=
    spanPStop _ v '\'' r (fun c hc => by simpa using hv c hc) (by decide)
  simp only [matchSingle, matchExportHead_at K ('\'' :: (v ++ '\'' :: r)) hK, hspan]

theorem matchBare_at (K tok r : List Char) (hK : goodKey K)
    (htokne : ¬(tok = [])) (htok : ∀ c ∈ tok, isSpaceChar c = false)
    (hr : r = [] ∨ ∃ t, r = ' ' :: t) :
    matchBare (exportLit ++ ' ' :: (K ++ '=' :: (tok ++ r))) =
      some ((K, tok), r.dropWhile isSpaceChar) := by
  cases tok with
  | nil => cases htokne rfl
  | cons t0 tok' =>
    have hspan : spanP (fun c => !(isSpaceChar c)) ((t0 :: tok') ++ r) =
        (t0 :: tok', r) := by
      rcases hr with rfl | ⟨t, rfl⟩
      · rw [List.append_nil]
        exact spanPAll _ (t0 :: tok') (fun c hc => by simp [htok c hc])
      · exact spanPStop _ (t0 :: tok') ' ' t
          (fun c hc => by simp [htok c hc]) (by decide)
    simp only [matchBare, matchExportHead_at K ((t0 :: tok') ++ r) hK, hspan]

theorem matchDouble_at_nonquote (K r : List Char) (c : Char) (hK : goodKey K)
    (hc : ¬(c = '"')) :
    matchDouble (exportLit ++ ' ' :: (K ++ '=' :: (c :: r))) = none := by
  have hcb : ¬((c == '"') = true) := by simpa using hc
  simp only [matchDouble, matchExportHead_at K (c :: r) hK]
  split
  · rename_i heq
    rw [List.cons.injEq] at heq
    exact absurd heq.1 hc
  · rfl

theorem matchSingle_at_nonquote (K r : List Char) (c : Char) (hK : goodKey K)
    (hc : ¬(c = '\'')) :
    matchSingle (exportLit ++ ' ' :: (K ++ '=' :: (c :: r))) = none := by
  simp only [matchSingle, matchExportHead_at K (c :: r) hK]
  split
  · rename_i heq
    rw [List.cons.injEq] at heq
    exact absurd heq.1 hc
  · rfl

/-! ### Quote stripping on clean values -/

theorem stripChar_of_not_mem (q : Char) (s : List Char) (h : ¬ q ∈ s) :
    stripChar q s = s := by
  have hdw : s.dropWhile (fun d => d == q) = s := by
    cases s with
    | nil => rfl
    | cons c rest =>
      have : ¬((c == q) = true) := by
        simp
        intro hc
        exact h (hc ▸ List.mem_cons_self c rest)
      simp [List.dropWhile_cons, this]
  have hdw2 : s.reverse.dropWhile (fun d => d == q) = s.reverse := by
    cases hs : s.reverse with
    | nil => rfl
    | cons c rest =>
      have hc : c ∈ s := by
        have : c ∈ s.reverse := hs ▸ List.mem_cons_self c rest
        simpa using this
      have : ¬((c == q) = true) := by
        simp
        intro hcq
        exact h (hcq ▸ hc)
      simp [List.dropWhile_cons, this]
  unfold stripChar
  rw [hdw, hdw2, List.reverse_reverse]

theorem stripChar_wrap (q : Char) (v : List Char) (h : ¬ q ∈ v) :
    stripChar q (q :: v ++ [q]) = v := by
  unfold stripChar
  have h1 : (q :: v ++ [q]).dropWhile (fun d => d == q) =
      (v ++ [q]).dropWhile (fun d => d == q) := by
    simp [List.dropWhile_cons]
  rw [h1]
  cases v with
  | nil => simp [List.dropWhile_cons]
  | cons c v' =>
    have hc : ¬((c == q) = true) := by
      simp
      intro hcq
      exact h (hcq ▸ List.mem_cons_self c v')
    have h2 : ((c :: v') ++ [q]).dropWhile (fun d => d == q) = (c :: v') ++ [q] := by
      simp [List.dropWhile_cons, hc]
    rw [h2]
    have h3 : ((c :: v') ++ [q]).reverse = q :: (c :: v').reverse := by
      simp
    rw [h3]
    have h4 : (q :: (c :: v').reverse).dropWhile (fun d => d == q) =
        ((c :: v').reverse).dropWhile (fun d => d == q) := by
      simp [List.dropWhile_cons]
    rw [h4]
    cases hrev : (c :: v').reverse with
    | nil =>
      have : (c :: v').length = 0 := by
        rw [← List.length_reverse, hrev]
        rfl
      simp at this
    | cons d rest =>
      have hd : d ∈ c :: v' := by
        have : d ∈ (c :: v').reverse := hrev ▸ List.mem_cons_self d rest
        exact List.mem_reverse.mp this
      have hdq : ¬((d == q) = true) := by
        simp
        intro hq
        rcases List.mem_cons.mp hd with h' | h'
        · exact h (by simp [← h', hq])
        · exact h (hq ▸ List.mem_cons_of_mem c h')
      rw [List.dropWhile_cons]
      simp only [hdq, Bool.false_eq_true, if_false, ite_false]
      rw [← hrev, List.reverse_reverse]

theorem stripQuotes_clean (v : List Char) (hv : goodVal v) : stripQuotes v = v := by
  unfold stripQuotes
  rw [stripChar_of_not_mem '"' v (fun hc => (hv '"' hc).2.2 rfl),
    stripChar_of_not_mem '\'' v (fun hc => (hv '\'' hc).2.1 rfl)]

theorem stripQuotes_single (v : List Char) (hv : goodVal v) :
    stripQuotes ('\'' :: v ++ ['\'']) = v := by
  unfold stripQuotes
  have h1 : stripChar '"' ('\'' :: v ++ ['\'']) = '\'' :: v ++ ['\''] := by
    apply stripChar_of_not_mem
    intro hmem
    rcases List.mem_cons.mp hmem with h' | h'
    · exact absurd h'.symm (by decide)
    · rcases List.mem_append.mp h' with h'' | h''
      · exact (hv '"' h'').2.2 rfl
      · simp at h''
  rw [h1, stripChar_wrap '\'' v (fun hc => (hv '\'' hc).2.1 rfl)]

theorem stripQuotes_double (v : List Char) (hv : goodVal v) :
    stripQuotes ('"' :: v ++ ['"']) = v := by
  unfold stripQuotes
  rw [stripChar_wrap '"' v (fun hc => (hv '"' hc).2.2 rfl)]
  exact stripChar_of_not_mem '\'' v (fun hc => (hv '\'' hc).2.1 rfl)

/-- Stripping the raw token of a clean segment recovers its value. -/
theorem stripQuotes_rawToken (s : ExportSeg) (hs : GoodSeg s) :
    stripQuotes (rawToken s) = s.value := by
  obtain ⟨hK, hv, hb⟩ := hs
  cases hform : s.form with
  | double => rw [rawToken, hform]; exact stripQuotes_double s.value hv
  | single => rw [rawToken, hform]; exact stripQuotes_single s.value hv
  | bare => rw [rawToken, hform]; exact stripQuotes_clean s.value hv

/-! ### Facts about rendered segments -/

theorem rawToken_ne_nil (s : ExportSeg) (hs : GoodSeg s) : ¬(rawToken s = []) := by
  obtain ⟨hK, hv, hb⟩ := hs
  cases hform : s.form with
  | double => simp [rawToken, hform]
  | single => simp [rawToken, hform]
  | bare => simpa [rawToken, hform] using hb hform

theorem rawToken_nonspace (s : ExportSeg) (hs : GoodSeg s) :
    ∀ c ∈ rawToken s, isSpaceChar c = false := by
  obtain ⟨hK, hv, hb⟩ := hs
  intro c hc
  cases hform : s.form with
  | double =>
    rw [rawToken, hform] at hc
    rcases List.mem_cons.mp hc with rfl | hc'
    · decide
    · rcases List.mem_append.mp hc' with h' | h'
      · exact (hv c h').1
      · simp at h'
        subst h'
        decide
  | single =>
    rw [rawToken, hform] at hc
    rcases List.mem_cons.mp hc with rfl | hc'
    · decide
    · rcases List.mem_append.mp hc' with h' | h'
      · exact (hv c h').1
      · simp at h'
        subst h'
        decide
  | bare =>
    rw [rawToken, hform] at hc
    exact (hv c hc).1

theorem renderCmd_cons (s : ExportSeg) (rest : List ExportSeg) :
    renderCmd (s :: rest) = renderSeg s ++ ' ' :: renderCmd rest := rfl

theorem renderCmd_cons_assoc (s : ExportSeg) (rest : List ExportSeg) :
    renderCmd (s :: rest) = (renderSeg s ++ [' ']) ++ renderCmd rest := by
  rw [renderCmd_cons, List.append_assoc, List.singleton_append]

theorem renderCmd_tok (rest : List ExportSeg) : TOk (renderCmd rest) := by
  cases rest with
  | nil => exact Or.inl rfl
  | cons x xs =>
    refine Or.inr ⟨(x.key ++ '=' :: rawToken x) ++ ' ' :: renderCmd xs, ?_⟩
    rw [renderCmd_cons, renderSeg, List.append_assoc, List.cons_append]

theorem renderCmd_dropWhile (rest : List ExportSeg) :
    (renderCmd rest).dropWhile isSpaceChar = renderCmd rest := by
  rcases renderCmd_tok rest with h | ⟨t', h⟩
  · rw [h]; rfl
  · rw [h, exportLit, List.cons_append, List.dropWhile_cons,
      if_neg (by decide : ¬(isSpaceChar 'e' = true))]

theorem seg_shape (s : ExportSeg) :
    renderSeg s ++ [' '] =
      exportLit ++ ' ' :: (s.key ++ '=' :: (rawToken s ++ [' '])) := by
  simp [renderSeg, List.append_assoc]

/-- The shared head fails at every position strictly inside a rendered
segment (plus its boundary space), for any `TOk` continuation. -/
theorem seg_inner_fail (s : ExportSeg) (hs : GoodSeg s) (t : List Char)
    (ht : TOk t) (ys : List Char) (hne : ¬(ys = []))
    (hsuf : ys <:+ renderSeg s ++ [' '])
    (hful : ¬(ys = renderSeg s ++ [' '])) :
    matchExportHead (ys ++ t) = none := by
  obtain ⟨hK, hv, hb⟩ := hs
  rw [seg_shape s] at hsuf hful
  rcases suffix_append_cases ys exportLit _ hsuf with hcase | ⟨E2, hE2suf, hE2ne, rfl⟩
  · -- inside the space, the key, the token run or the boundary
    rcases List.suffix_cons_iff.mp hcase with rfl | hcase1
    · -- at the space after the keyword
      rw [List.cons_append]
      exact matchExportHead_fail_head ' ' _ (by decide)
    rcases suffix_append_cases ys s.key _ hcase1 with hcase2 | ⟨K2, hK2suf, hK2ne, rfl⟩
    · rcases List.suffix_cons_iff.mp hcase2 with rfl | hcase3
      · -- at the `=`
        rw [List.cons_append]
        exact matchExportHead_fail_nonspace_run [] '=' _
          (by intro c hc; simp at hc) (by decide) (by decide)
      -- inside the token or at the boundary space
      rcases suffix_append_cases ys (rawToken s) [' '] hcase3 with
        hcase4 | ⟨tok2, htok2suf, htok2ne, rfl⟩
      · -- suffix of the single-space boundary
        rcases List.suffix_cons_iff.mp hcase4 with rfl | hcase5
        · rw [List.cons_append]
          exact matchExportHead_fail_head ' ' _ (by decide)
        · rw [List.suffix_nil] at hcase5
          exact absurd hcase5 hne
      · -- a nonempty run of token characters then the boundary space
        rw [List.append_assoc, List.singleton_append]
        exact matchExportHead_fail_space_run tok2 t
          (fun c hc => rawToken_nonspace s ⟨hK, hv, hb⟩ c (htok2suf.subset hc)) ht
    · -- a nonempty run of key characters then `=`
      rw [List.append_assoc, List.cons_append]
      exact matchExportHead_fail_nonspace_run K2 '=' _
        (fun c hc => word_not_space c (hK.2 c (hK2suf.subset hc)))
        (by decide) (by decide)
  · -- a nonempty suffix of the literal `export` followed by the rest
    have hmem : E2 ∈ List.tails exportLit := (List.mem_tails E2 exportLit).mpr hE2suf
    have henum : E2 = [] ∨ E2 = ['t'] ∨ E2 = ['r', 't'] ∨ E2 = ['o', 'r', 't'] ∨
        E2 = ['p', 'o', 'r', 't'] ∨ E2 = ['x', 'p', 'o', 'r', 't'] ∨
        E2 = exportLit := by
      simp [exportLit, List.tails] at hmem
      tauto
    rcases henum with rfl | rfl | rfl | rfl | rfl | rfl | rfl
    · exact absurd rfl hE2ne
    · rw [List.cons_append, List.cons_append]
      exact matchExportHead_fail_head 't' _ (by decide)
    · rw [List.cons_append, List.cons_append]
      exact matchExportHead_fail_head 'r' _ (by decide)
    · rw [List.cons_append, List.cons_append]
      exact matchExportHead_fail_head 'o' _ (by decide)
    · rw [List.cons_append, List.cons_append]
      exact matchExportHead_fail_head 'p' _ (by decide)
    · rw [List.cons_append, List.cons_append]
      exact matchExportHead_fail_head 'x' _ (by decide)
    · exact absurd rfl hful

theorem seg_full_shape (s : ExportSeg) (t : List Char) :
    (renderSeg s ++ [' ']) ++ t =
      exportLit ++ ' ' :: (s.key ++ '=' :: (rawToken s ++ ' ' :: t)) := by
  simp [renderSeg, List.append_assoc]

/-- The double-quote pattern fails outright at the start of a single-quoted
or bare segment. -/
theorem matchDouble_full_fail (s : ExportSeg) (hs : GoodSeg s)
    (hform : ¬(s.form = .double)) (t : List Char) :
    matchDouble ((renderSeg s ++ [' ']) ++ t) = none := by
  obtain ⟨hK, hv, hb⟩ := hs
  rw [seg_full_shape s t]
  cases hf : s.form with
  | double => exact absurd hf hform
  | single =>
    rw [rawToken, hf, List.cons_append]
    exact matchDouble_at_nonquote s.key _ '\'' hK (by decide)
  | bare =>
    rw [rawToken, hf]
    cases hval : s.value with
    | nil => exact absurd hval (hb hf)
    | cons v0 v' =>
      rw [List.cons_append]
      exact matchDouble_at_nonquote s.key _ v0 hK
        (fun hq => (hv v0 (hval ▸ List.mem_cons_self v0 v')).2.2 hq)

/-- The single-quote pattern fails outright at the start of a double-quoted
or bare segment. -/
theorem matchSingle_full_fail (s : ExportSeg) (hs : GoodSeg s)
    (hform : ¬(s.form = .single)) (t : List Char) :
    matchSingle ((renderSeg s ++ [' ']) ++ t) = none := by
  obtain ⟨hK, hv, hb⟩ := hs
  rw [seg_full_shape s t]
  cases hf : s.form with
  | single => exact absurd hf hform
  | double =>
    rw [rawToken, hf, List.cons_append]
    exact matchSingle_at_nonquote s.key _ '"' hK (by decide)
  | bare =>
    rw [rawToken, hf]
    cases hval : s.value with
    | nil => exact absurd hval (hb hf)
    | cons v0 v' =>
      rw [List.cons_append]
      exact matchSingle_at_nonquote s.key _ v0 hK
        (fun hq => (hv v0 (hval ▸ List.mem_cons_self v0 v')).2.1 hq)

theorem findMF_step_some
    (m : List Char → Option ((List Char × List Char) × List Char))
    (s' : List Char) (fuel : Nat) (kv : List Char × List Char)
    (rest' : List Char) (hne : ¬(s' = [])) (h : m s' = some (kv, rest')) :
    findMatchesFuel m (fuel + 1) s' = kv :: findMatchesFuel m fuel rest' := by
  cases s' with
  | nil => exact absurd rfl hne
  | cons c r => exact findMF_cons_some m c r fuel kv rest' h

theorem renderCmd_ne_nil (s : ExportSeg) (rest : List ExportSeg) :
    ¬(renderCmd (s :: rest) = []) := by
  rw [renderCmd_cons, renderSeg]
  simp

theorem renderCmd_length_cons (s : ExportSeg) (rest : List ExportSeg) :
    (renderCmd (s :: rest)).length =
      (renderSeg s).length + 1 + (renderCmd rest).length := by
  rw [renderCmd_cons]
  simp
  omega

theorem renderSeg_length_pos (s : ExportSeg) : 1 ≤ (renderSeg s).length := by
  rw [renderSeg]
  simp
  omega

/-! ### The bare pattern captures every segment, in textual order -/

theorem charBare (segs : List ExportSeg) (H : ∀ s ∈ segs, GoodSeg s) :
    ∀ fuel, (renderCmd segs).length ≤ fuel →
      findMatchesFuel matchBare fuel (renderCmd segs) = segs.map bareCapture := by
  induction segs with
  | nil => intro fuel _; exact findMF_nil matchBare fuel
  | cons s rest ih =>
    intro fuel hfuel
    have hgood : GoodSeg s := H s (List.mem_cons_self s rest)
    obtain ⟨f, rfl⟩ : ∃ f, fuel = f + 1 := by
      rcases Nat.exists_eq_add_of_le hfuel with ⟨d, hd⟩
      rcases fuel with _ | f
      · exfalso
        have h1 := renderCmd_length_cons s rest
        have h2 := renderSeg_length_pos s
        omega
      · exact ⟨f, rfl⟩
    have hshape : renderCmd (s :: rest) =
        exportLit ++ ' ' :: (s.key ++ '=' :: (rawToken s ++ ' ' :: renderCmd rest)) := by
      rw [renderCmd_cons, renderSeg]
      simp [List.append_assoc]
    have hmatch : matchBare (renderCmd (s :: rest)) =
        some ((s.key, rawToken s), renderCmd rest) := by
      rw [hshape]
      rw [matchBare_at s.key (rawToken s) (' ' :: renderCmd rest) hgood.1
        (rawToken_ne_nil s hgood) (rawToken_nonspace s hgood)
        (Or.inr ⟨renderCmd rest, rfl⟩)]
      rw [List.dropWhile_cons, if_pos (by decide : isSpaceChar ' ' = true),
        renderCmd_dropWhile]
    rw [findMF_step_some matchBare _ f _ _ (renderCmd_ne_nil s rest) hmatch]
    have hflen : (renderCmd rest).length ≤ f := by
      have h1 := renderCmd_length_cons s rest
      have h2 := renderSeg_length_pos s
      omega
    rw [ih (fun q hq => H q (List.mem_cons_of_mem s hq)) f hflen]
    rfl

/-- Scanning a command headed by a segment that the matcher rejects at every
position: the scan simply moves past the segment and its boundary space. -/
theorem charSkip (m : List Char → Option ((List Char × List Char) × List Char))
    (s : ExportSeg) (hs : GoodSeg s) (rest : List ExportSeg)
    (hlift : ∀ u, matchExportHead u = none → m u = none)
    (hfull : m ((renderSeg s ++ [' ']) ++ renderCmd rest) = none) :
    ∀ fuel, (renderCmd (s :: rest)).length ≤ fuel →
      findMatchesFuel m fuel (renderCmd (s :: rest)) =
        findMatchesFuel m (fuel - ((renderSeg s).length + 1)) (renderCmd rest) := by
  intro fuel hfuel
  rw [renderCmd_cons_assoc]
  have hxslen : (renderSeg s ++ [' ']).length = (renderSeg s).length + 1 := by
    simp
  have hlen1 : (renderSeg s).length + 1 ≤ fuel := by
    have h1 := renderCmd_length_cons s rest
    omega
  have hfuel_eq : fuel =
      (renderSeg s ++ [' ']).length + (fuel - ((renderSeg s).length + 1)) := by
    rw [hxslen]
    omega
  have hH : ∀ ys, ¬(ys = []) → ys <:+ (renderSeg s ++ [' ']) →
      m (ys ++ renderCmd rest) = none := by
    intro ys hne hsuf
    by_cases hy : ys = renderSeg s ++ [' ']
    · rw [hy]
      exact hfull
    · exact hlift _ (seg_inner_fail s hs (renderCmd rest) (renderCmd_tok rest)
        ys hne hsuf hy)
  have hskip := findMF_skip m (renderSeg s ++ [' ']) (renderCmd rest) hH
    (fuel - ((renderSeg s).length + 1))
  rw [← hfuel_eq] at hskip
  exact hskip

/-! ### The double-quote pattern captures exactly the double-quoted
segments, in textual order -/

theorem charDouble (segs : List ExportSeg) (H : ∀ s ∈ segs, GoodSeg s) :
    ∀ fuel, (renderCmd segs).length ≤ fuel →
      findMatchesFuel matchDouble fuel (renderCmd segs) =
        segs.filterMap doubleCapture := by
  induction segs with
  | nil => intro fuel _; exact findMF_nil matchDouble fuel
  | cons s rest ih =>
    intro fuel hfuel
    have hgood : GoodSeg s := H s (List.mem_cons_self s rest)
    have hrest : ∀ q ∈ rest, GoodSeg q := fun q hq => H q (List.mem_cons_of_mem s hq)
    by_cases hform : s.form = .double
    · -- the segment is captured
      obtain ⟨f, rfl⟩ : ∃ f, fuel = f + 1 := by
        rcases fuel with _ | f
        · exfalso
          have h1 := renderCmd_length_cons s rest
          have h2 := renderSeg_length_pos s
          omega
        · exact ⟨f, rfl⟩
      have hshape : renderCmd (s :: rest) =
          exportLit ++ ' ' :: (s.key ++ '=' ::
            ('"' :: (s.value ++ '"' :: (' ' :: renderCmd rest)))) := by
        rw [renderCmd_cons, renderSeg, rawToken, hform]
        simp [List.append_assoc]
      have hmatch : matchDouble (renderCmd (s :: rest)) =
          some ((s.key, s.value), ' ' :: renderCmd rest) := by
        rw [hshape]
        exact matchDouble_at s.key s.value (' ' :: renderCmd rest) hgood.1
          (fun c hc => (hgood.2.1 c hc).2.2)
      rw [findMF_step_some matchDouble _ f _ _ (renderCmd_ne_nil s rest) hmatch]
      obtain ⟨f', rfl⟩ : ∃ f', f = f' + 1 := by
        rcases f with _ | f'
        · exfalso
          have h1 := renderCmd_length_cons s rest
          have h2 := renderSeg_length_pos s
          omega
        · exact ⟨f', rfl⟩
      have hnone : matchDouble (' ' :: renderCmd rest) = none :=
        matchDouble_of_head_none _ (matchExportHead_fail_head ' ' _ (by decide))
      rw [findMF_cons_none matchDouble ' ' (renderCmd rest) f' hnone]
      have hflen : (renderCmd rest).length ≤ f' := by
        have h1 := renderCmd_length_cons s rest
        have h2 := renderSeg_length_pos s
        omega
      rw [ih hrest f' hflen]
      have hcap : doubleCapture s = some (s.key, s.value) := by
        rw [doubleCapture, hform]
      rw [List.filterMap_cons, hcap]
    · -- the segment is skipped
      rw [charSkip matchDouble s hgood rest matchDouble_of_head_none
        (matchDouble_full_fail s hgood hform (renderCmd rest)) fuel hfuel]
      have hflen : (renderCmd rest).length ≤ fuel - ((renderSeg s).length + 1) := by
        have h1 := renderCmd_length_cons s rest
        omega
      rw [ih hrest _ hflen]
      have hcap : doubleCapture s = none := by
        rw [doubleCapture]
        cases hf : s.form with
        | double => exact absurd hf hform
        | single => rfl
        | bare => rfl
      rw [List.filterMap_cons, hcap]

/-! ### Likewise for the single-quote pattern -/

theorem charSingle (segs : List ExportSeg) (H : ∀ s ∈ segs, GoodSeg s) :
    ∀ fuel, (renderCmd segs).length ≤ fuel →
      findMatchesFuel matchSingle fuel (renderCmd segs) =
        segs.filterMap singleCapture := by
  induction segs with
  | nil => intro fuel _; exact findMF_nil matchSingle fuel
  | cons s rest ih =>
    intro fuel hfuel
    have hgood : GoodSeg s := H s (List.mem_cons_self s rest)
    have hrest : ∀ q ∈ rest, GoodSeg q := fun q hq => H q (List.mem_cons_of_mem s hq)
    by_cases hform : s.form = .single
    · obtain ⟨f, rfl⟩ : ∃ f, fuel = f + 1 := by
        rcases fuel with _ | f
        · exfalso
          have h1 := renderCmd_length_cons s rest
          have h2 := renderSeg_length_pos s
          omega
        · exact ⟨f, rfl⟩
      have hshape : renderCmd (s :: rest) =
          exportLit ++ ' ' :: (s.key ++ '=' ::
            ('\'' :: (s.value ++ '\'' :: (' ' :: renderCmd rest)))) := by
        rw [renderCmd_cons, renderSeg, rawToken, hform]
        simp [List.append_assoc]
      have hmatch : matchSingle (renderCmd (s :: rest)) =
          some ((s.key, s.value), ' ' :: renderCmd rest) := by
        rw [hshape]
        exact matchSingle_at s.key s.value (' ' :: renderCmd rest) hgood.1
          (fun c hc => (hgood.2.1 c hc).2.1)
      rw [findMF_step_some matchSingle _ f _ _ (renderCmd_ne_nil s rest) hmatch]
      obtain ⟨f', rfl⟩ : ∃ f', f = f' + 1 := by
        rcases f with _ | f'
        · exfalso
          have h1 := renderCmd_length_cons s rest
          have h2 := renderSeg_length_pos s
          omega
        · exact ⟨f', rfl⟩
      have hnone : matchSingle (' ' :: renderCmd rest) = none :=
        matchSingle_of_head_none _ (matchExportHead_fail_head ' ' _ (by decide))
      rw [findMF_cons_none matchSingle ' ' (renderCmd rest) f' hnone]
      have hflen : (renderCmd rest).length ≤ f' := by
        have h1 := renderCmd_length_cons s rest
        have h2 := renderSeg_length_pos s
        omega
      rw [ih hrest f' hflen]
      have hcap : singleCapture s = some (s.key, s.value) := by
        rw [singleCapture, hform]
      rw [List.filterMap_cons, hcap]
    · rw [charSkip matchSingle s hgood rest matchSingle_of_head_none
        (matchSingle_full_fail s hgood hform (renderCmd rest)) fuel hfuel]
      have hflen : (renderCmd rest).length ≤ fuel - ((renderSeg s).length + 1) := by
        have h1 := renderCmd_length_cons s rest
        omega
      rw [ih hrest _ hflen]
      have hcap : singleCapture s = none := by
        rw [singleCapture]
        cases hf : s.form with
        | single => exact absurd hf hform
        | double => rfl
        | bare => rfl
      rw [List.filterMap_cons, hcap]

/-! ### Lookup after the parser's fold: the last write to a key wins -/

theorem envGet_foldl_parseStep (env : Env) (l : List (List Char × List Char))
    (init : Env) (K : List Char) :
    envGet (l.foldl (parseStep env) init) (String.mk K) =
      (match l.reverse.find? (fun kv => kv.1 == K) with
      | some kv => some (String.mk (expandEnvVars env (stripQuotes kv.2)))
      | none => envGet init (String.mk K)) := by
  induction l generalizing init with
  | nil => rfl
  | cons kv l' ih =>
    rw [List.foldl_cons, List.reverse_cons, List.find?_append,
      ih (parseStep env init kv)]
    cases hf : l'.reverse.find? (fun kv => kv.1 == K) with
    | some kv' => rfl
    | none =>
      rw [Option.none_or]
      show envGet (parseStep env init kv) (String.mk K) = _
      by_cases hk : kv.1 == K
      · have hkeq : kv.1 = K := by simpa using hk
        rw [List.find?_cons, hk]
        unfold parseStep
        rw [← hkeq, envGet_envSet_self]
      · have hkf : (kv.1 == K) = false := by simpa using hk
        rw [List.find?_cons, hkf, List.find?_nil]
        unfold parseStep
        rw [envGet_envSet_other]
        intro hKeq
        have : K = kv.1 := by
          have := congrArg String.toList hKeq
          simpa using this
        exact hk (by simp [this])

theorem singleCapture_key (s : ExportSeg) (kv : List Char × List Char)
    (h : singleCapture s = some kv) : kv.1 = s.key := by
  unfold singleCapture at h
  cases hf : s.form with
  | single => rw [hf] at h; cases h; rfl
  | double => rw [hf] at h; cases h
  | bare => rw [hf] at h; cases h

theorem doubleCapture_key (s : ExportSeg) (kv : List Char × List Char)
    (h : doubleCapture s = some kv) : kv.1 = s.key := by
  unfold doubleCapture at h
  cases hf : s.form with
  | double => rw [hf] at h; cases h; rfl
  | single => rw [hf] at h; cases h
  | bare => rw [hf] at h; cases h

/-- The parser's answer for a key over a rendered command: the value of the
textually last segment assigning that key (expanded), absent otherwise. -/
theorem parseRender_lookup (env : Env) (segs : List ExportSeg)
    (H : ∀ s ∈ segs, GoodSeg s) (K : List Char) :
    envGet (parseExportCore env (renderCmd segs)) (String.mk K) =
      (match segs.reverse.find? (fun s => s.key == K) with
      | some s0 => some (String.mk (expandEnvVars env s0.value))
      | none => none) := by
  unfold parseExportCore findMatches
  rw [charBare segs H _ (le_refl _), charSingle segs H _ (le_refl _),
    charDouble segs H _ (le_refl _)]
  rw [envGet_foldl_parseStep env (segs.map bareCapture) _ K]
  rw [← List.map_reverse, List.find?_map]
  have hcomp : ((fun kv : List Char × List Char => kv.1 == K) ∘ bareCapture) =
      (fun s => s.key == K) := rfl
  rw [hcomp]
  cases hf : segs.reverse.find? (fun s => s.key == K) with
  | some s0 =>
    have hs0 : GoodSeg s0 := by
      have : s0 ∈ segs.reverse := List.mem_of_find?_eq_some hf
      exact H s0 (List.mem_reverse.mp this)
    simp only [Option.map_some', bareCapture]
    rw [stripQuotes_rawToken s0 hs0]
  | none =>
    simp only [Option.map_none']
    have hnokey : ∀ s ∈ segs, (s.key == K) = false := by
      intro s hsmem
      have := List.find?_eq_none.mp hf s (List.mem_reverse.mpr hsmem)
      simpa using this
    rw [envGet_foldl_parseStep env (segs.filterMap singleCapture) _ K]
    have hsingle : (segs.filterMap singleCapture).reverse.find?
        (fun kv => kv.1 == K) = none := by
      rw [List.find?_eq_none]
      intro kv hkv
      have hkv' : kv ∈ segs.filterMap singleCapture := List.mem_reverse.mp hkv
      obtain ⟨s, hsmem, hcap⟩ := List.mem_filterMap.mp hkv'
      rw [singleCapture_key s kv hcap]
      simp only [hnokey s hsmem]
      exact Bool.false_ne_true
    rw [hsingle]
    rw [envGet_foldl_parseStep env (segs.filterMap doubleCapture) _ K]
    have hdouble : (segs.filterMap doubleCapture).reverse.find?
        (fun kv => kv.1 == K) = none := by
      rw [List.find?_eq_none]
      intro kv hkv
      have hkv' : kv ∈ segs.filterMap doubleCapture := List.mem_reverse.mp hkv
      obtain ⟨s, hsmem, hcap⟩ := List.mem_filterMap.mp hkv'
      rw [doubleCapture_key s kv hcap]
      simp only [hnokey s hsmem]
      exact Bool.false_ne_true
    rw [hdouble]
    rfl

/-- C6 fails as stated: in `export A='x' export A="p q"` the textually last
assignment is `A="p q"`, but the parser records `A = "p"` (the double-quote
pass runs first and is then overwritten by the single-quote pass and the
bare pass, which truncates the value at the whitespace). -/
theorem c6_counterexample :
    parseExportCommand [] c6cmd = [("A", "p")] ∧
    ¬ envGet (parseExportCommand [] c6cmd) "A" = some "p q" := by
  exact ⟨by decide, by decide⟩

/-- C6 amended: over commands made of whitespace-separated `export`
assignments in any mix of the three quoting forms — keys being word
characters, values nonempty without whitespace or quote characters — every
assignment is captured and the textually last assignment to a name is the
value recorded for it (quoting stripped, references expanded). -/
theorem c6_amended (env : Env) (segs : List ExportSeg)
    (H : ∀ s ∈ segs, GoodSeg s) (K : List Char) (s0 : ExportSeg)
    (hfind : segs.reverse.find? (fun s => s.key == K) = some s0) :
    envGet (parseExportCommand env (String.mk (renderCmd segs))) (String.mk K) =
      some (String.mk (expandEnvVars env s0.value)) := by
  unfold parseExportCommand
  have htl : (String.mk (renderCmd segs)).toList = renderCmd segs := rfl
  rw [htl, parseRender_lookup env segs H K, hfind]

theorem c6_amended_witness :
    (∀ s ∈ c6segs, GoodSeg s) ∧
    c6segs.reverse.find? (fun s => s.key == ['A']) = some c6last ∧
    envGet (parseExportCommand [] (String.mk (renderCmd c6segs)))
      (String.mk ['A']) = some (String.mk (expandEnvVars [] c6last.value)) ∧
    String.mk (expandEnvVars [] c6last.value) = "three" :=
  ⟨by decide, by decide,
    c6_amended [] c6segs (by decide) ['A'] c6last (by decide), by decide⟩

/-! ### The single-command `export K='V'` through the parser -/

theorem matchAfterKeyword_rest_subset (s1 key s4 : List Char)
    (h : matchAfterKeyword s1 = some (key, s4)) : ∀ c ∈ s4, c ∈ s1 := by
  unfold matchAfterKeyword at h
  split at h
  · cases h
  · split at h
    · cases h
    · split at h
      · rename_i x2 hd tl s2' heqsp x1 key' hkeyne s3' s4' heq2
        cases h
        intro c hc
        have hs2 : s2' = s1.dropWhile isSpaceChar := by
          have := congrArg Prod.snd heqsp
          simpa [spanP] using this.symm
        have hs3 : '=' :: s4 = s2'.dropWhile isWordChar := by
          have := congrArg Prod.snd heq2
          simpa [spanP] using this.symm
        have hc3 : c ∈ ('=' :: s4) := List.mem_cons_of_mem '=' hc
        rw [hs3] at hc3
        have hc2 : c ∈ s2' := (List.dropWhile_suffix isWordChar).subset hc3
        rw [hs2] at hc2
        exact (List.dropWhile_suffix isSpaceChar).subset hc2
      · cases h

theorem matchExportHead_rest_subset (s key s4 : List Char)
    (h : matchExportHead s = some (key, s4)) : ∀ c ∈ s4, c ∈ s := by
  unfold matchExportHead at h
  split at h
  · cases h
  · rename_i s1' heq
    intro c hc
    rw [dropPrefixChars_eq_some exportLit s s1' heq]
    exact List.mem_append_right exportLit
      (matchAfterKeyword_rest_subset s1' key s4 h c hc)

theorem matchDouble_quote_mem (s : List Char)
    (r : (List Char × List Char) × List Char) (h : matchDouble s = some r) :
    '"' ∈ s := by
  unfold matchDouble at h
  split at h
  · cases h
  · split at h
    · rename_i x key' s4' s5' heq
      exact matchExportHead_rest_subset s key' ('"' :: s5') heq '"'
        (List.mem_cons_self '"' s5')
    · cases h

theorem findMF_double_no_quote (cs : List Char) (h : ¬ '"' ∈ cs) :
    ∀ fuel, findMatchesFuel matchDouble fuel cs = [] := by
  intro fuel
  induction fuel generalizing cs with
  | zero => rfl
  | succ f ih =>
    cases cs with
    | nil => rfl
    | cons c r =>
      cases hm : matchDouble (c :: r) with
      | some kv => exact absurd (matchDouble_quote_mem _ _ hm) h
      | none =>
        rw [findMF_cons_none matchDouble c r f hm]
        exact ih r (fun hr => h (List.mem_cons_of_mem c hr))

theorem envSet_nil (k v : String) : envSet [] k v = [(k, v)] := rfl

theorem envSet_single_self (k v v' : String) :
    envSet [(k, v)] k v' = [(k, v')] := by
  simp [envSet]

/-- The predicted assignments of the exact command `export K='V'` for a
word-character key and a whitespace- and quote-free value: the single entry
`K` mapped to the expanded `V`. -/
theorem c5_parse (env : Env) (K V : List Char) (hK : goodKey K)
    (hV : goodVal V) :
    parseExportCore env (renderSeg { form := .single, key := K, value := V }) =
      [(String.mk K, String.mk (expandEnvVars env V))] := by
  have hcmd : renderSeg { form := .single, key := K, value := V } =
      exportLit ++ ' ' :: (K ++ '=' :: ('\'' :: (V ++ '\'' :: []))) := rfl
  have hne : ¬(renderSeg { form := .single, key := K, value := V } = []) := by
    rw [hcmd]
    simp
  have hnq : ¬ '"' ∈ renderSeg { form := .single, key := K, value := V } := by
    rw [hcmd]
    intro hmem
    simp [List.mem_append, List.mem_cons, exportLit] at hmem
    rcases hmem with hmem | hmem
    · have := hK.2 '"' hmem
      simp [isWordChar] at this
    · exact (hV '"' hmem).2.2 rfl
  have hmS : matchSingle (renderSeg { form := .single, key := K, value := V }) =
      some ((K, V), []) := by
    rw [hcmd]
    exact matchSingle_at K V [] hK (fun c hc => (hV c hc).2.1)
  have hmB : matchBare (renderSeg { form := .single, key := K, value := V }) =
      some ((K, '\'' :: (V ++ '\'' :: [])), []) := by
    have htok : ¬(('\'' :: (V ++ '\'' :: [])) = []) := by simp
    have htok2 : ∀ c ∈ ('\'' :: (V ++ '\'' :: [])), isSpaceChar c = false := by
      intro c hc
      rcases List.mem_cons.mp hc with rfl | hc'
      · decide
      · rcases List.mem_append.mp hc' with h' | h'
        · exact (hV c h').1
        · simp at h'
          subst h'
          decide
    have := matchBare_at K ('\'' :: (V ++ '\'' :: [])) [] hK htok htok2
      (Or.inl rfl)
    rw [List.append_nil] at this
    rw [hcmd]
    exact this
  obtain ⟨f, hflen⟩ : ∃ f,
      (renderSeg { form := .single, key := K, value := V }).length = f + 1 := by
    have : (renderSeg { form := .single, key := K, value := V }).length ≠ 0 := by
      intro hzero
      exact hne (List.length_eq_zero.mp hzero)
    exact Nat.exists_eq_succ_of_ne_zero this
  unfold parseExportCore findMatches
  rw [hflen,
    findMF_step_some matchSingle _ f _ _ hne hmS,
    findMF_step_some matchBare _ f _ _ hne hmB,
    findMF_nil, findMF_nil,
    findMF_double_no_quote _ hnq]
  simp only [List.foldl_cons, List.foldl_nil]
  unfold parseStep
  simp only []
  rw [stripQuotes_clean V hV]
  have hstrip : stripQuotes ('\'' :: (V ++ '\'' :: [])) = V := by
    have h2 := stripQuotes_single V hV
    rwa [List.cons_append] at h2
  rw [hstrip, envSet_nil, envSet_single_self]

/-! ### The authoritative resync round-trips a faithful dump -/

theorem splitFirstEq_line (k v : String)
    (hk : ∀ c ∈ k.toList, ¬(c = '=')) :
    splitFirstEq (k ++ "=" ++ v) = some (k, v) := by
  have htl : (k ++ "=" ++ v).toList = k.toList ++ '=' :: v.toList := by
    show (k ++ "=" ++ v).data = k.data ++ '=' :: v.data
    rw [String.data_append, String.data_append]
    show (k.data ++ ['=']) ++ v.data = _
    rw [List.append_assoc]
    rfl
  have hsat : ∀ c ∈ k.toList, (!(c == '=')) = true := by
    intro c hc
    simpa using hk c hc
  unfold splitFirstEq
  rw [htl]
  have hany : (k.toList ++ '=' :: v.toList).any (fun c => c == '=') = true := by
    refine List.any_eq_true.mpr ⟨'=', ?_, by simp⟩
    exact List.mem_append_right _ (List.mem_cons_self '=' v.toList)
  show (if ((k.toList ++ '=' :: v.toList).any fun c => c == '=') = true then
    some (String.mk ((k.toList ++ '=' :: v.toList).takeWhile (fun c => !(c == '='))),
      String.mk (((k.toList ++ '=' :: v.toList).dropWhile (fun c => !(c == '='))).drop 1))
    else none) = some (k, v)
  rw [hany, if_pos rfl]
  rw [takeWhileStop _ k.toList '=' v.toList hsat (by decide),
    dropWhileStop _ k.toList '=' v.toList hsat (by decide)]
  rfl

theorem not_key_of_any_false (e : Env) (k : String)
    (h : e.any (fun p => p.1 == k) = false) : ¬ k ∈ envKeys e := by
  intro hk
  rcases List.mem_map.mp hk with ⟨q, hq, hqk⟩
  rw [List.any_eq_false] at h
  exact h q hq (by simp [hqk])

theorem map_envSet_eq (e : Env) (k v : String) (hnd : EnvNodup e)
    (hmem : (k, v) ∈ e) :
    e.map (fun p => if p.1 == k then (k, v) else p) = e := by
  induction e with
  | nil => rfl
  | cons p rest ih =>
    have hnd' : ¬ p.1 ∈ envKeys rest ∧ EnvNodup rest := by
      have := hnd
      unfold EnvNodup envKeys at this ⊢
      simpa [List.nodup_cons] using this
    by_cases hp : p.1 == k
    · have hpk : p.1 = k := by simpa using hp
      have hpv : p = (k, v) := by
        rcases List.mem_cons.mp hmem with hh | hh
        · exact hh.symm
        · exfalso
          apply hnd'.1
          rw [hpk]
          exact List.mem_map_of_mem Prod.fst hh
      have hrest : ∀ q ∈ rest, (if q.1 == k then (k, v) else q) = q := by
        intro q hq
        have hqk : ¬(q.1 == k) = true := by
          simp only [beq_iff_eq]
          intro hqe
          apply hnd'.1
          rw [hpk, ← hqe]
          exact List.mem_map_of_mem Prod.fst hq
        rw [if_neg hqk]
      have hmap : rest.map (fun q => if q.1 == k then (k, v) else q) = rest := by
        rw [List.map_congr_left hrest]
        exact List.map_id rest
      rw [List.map_cons, if_pos hp, hmap, ← hpv]
    · have hmem' : (k, v) ∈ rest := by
        rcases List.mem_cons.mp hmem with hh | hh
        · exfalso
          apply hp
          rw [← hh]
          exact beq_self_eq_true k
        · exact hh
      rw [List.map_cons, if_neg hp, ih hnd'.2 hmem']

theorem envSet_mem_nodup (e : Env) (k v : String) (hnd : EnvNodup e)
    (hmem : (k, v) ∈ e) : envSet e k v = e := by
  unfold envSet
  have hany : e.any (fun p => p.1 == k) = true :=
    List.any_eq_true.mpr ⟨(k, v), hmem, by simp⟩
  rw [hany, if_pos rfl]
  exact map_envSet_eq e k v hnd hmem

theorem syncFold_pairs (e : Env) (hnd : EnvNodup e)
    (hkeys : ∀ p ∈ e, ∀ c ∈ p.1.toList, ¬(c = '=')) :
    ∀ l : List (String × String), (∀ p ∈ l, p ∈ e) →
      l.foldl (fun a p =>
        match splitFirstEq (p.1 ++ "=" ++ p.2) with
        | some kv => envSet a kv.1 kv.2
        | none => a) e = e := by
  intro l
  induction l with
  | nil => intro _; rfl
  | cons p l' ih =>
    intro hmem
    have hpe : p ∈ e := hmem p (List.mem_cons_self p l')
    have hsplit : splitFirstEq (p.1 ++ "=" ++ p.2) = some (p.1, p.2) :=
      splitFirstEq_line p.1 p.2 (hkeys p hpe)
    have hstep : (match splitFirstEq (p.1 ++ "=" ++ p.2) with
        | some kv => envSet e kv.1 kv.2
        | none => e) = e := by
      rw [hsplit]
      show envSet e p.1 p.2 = e
      exact envSet_mem_nodup e p.1 p.2 hnd (by simpa using hpe)
    rw [List.foldl_cons, hstep]
    exact ih (fun q hq => hmem q (List.mem_cons_of_mem p hq))

theorem syncFromDump_envLines (e : Env) (hwf : EnvWF e) :
    syncFromDump e (some (envLines e)) = e := by
  show List.foldl
      (fun a line =>
        match splitFirstEq line with
        | some kv => envSet a kv.1 kv.2
        | none => a)
      e (e.map (fun p => p.1 ++ "=" ++ p.2)) = e
  rw [List.foldl_map]
  exact syncFold_pairs e hwf.1 hwf.2 e (fun p hp => hp)

theorem EnvWF_envSet (e : Env) (k v : String) (hwf : EnvWF e)
    (hk : ∀ c ∈ k.toList, ¬(c = '=')) : EnvWF (envSet e k v) := by
  unfold envSet
  by_cases ha : e.any (fun p => p.1 == k)
  · rw [if_pos ha]
    constructor
    · have hfst : ∀ p ∈ e,
          (Prod.fst ∘ (fun p => if p.1 == k then (k, v) else p)) p = Prod.fst p := by
        intro p _
        show (if (p.1 == k) = true then (k, v) else p).1 = p.1
        by_cases hp : p.1 == k
        · rw [if_pos hp]
          exact (by simpa using hp : p.1 = k).symm
        · rw [if_neg hp]
      show (envKeys (e.map _)).Nodup
      unfold envKeys
      rw [List.map_map, List.map_congr_left hfst]
      exact hwf.1
    · intro p hp
      rcases List.mem_map.mp hp with ⟨q, hq, hfq⟩
      have hfq' : (if (q.1 == k) = true then (k, v) else q) = p := hfq
      by_cases hqk : q.1 == k
      · rw [if_pos hqk] at hfq'
        rw [← hfq']
        exact hk
      · rw [if_neg hqk] at hfq'
        rw [← hfq']
        exact hwf.2 q hq
  · rw [if_neg ha]
    have haf : e.any (fun p => p.1 == k) = false := by
      cases hx : e.any (fun p => p.1 == k) with
      | false => rfl
      | true => exact absurd hx ha
    constructor
    · show (envKeys (e ++ [(k, v)])).Nodup
      unfold envKeys
      rw [List.map_append]
      refine List.Nodup.append hwf.1 (List.nodup_singleton k) ?_
      intro x hx1 hx2
      simp at hx2
      subst hx2
      exact not_key_of_any_false e x haf hx1
    · intro p hp
      rcases List.mem_append.mp hp with hp' | hp'
      · exact hwf.2 p hp'
      · simp at hp'
        subst hp'
        exact hk

theorem getenv_set_env (sh : Shell) (e : Env) (k v : String) :
    Shell.getenv { sh with env := envSet e k v } k = some v := by
  unfold Shell.getenv
  show (match envGet (envSet e k v) k with
    | some w => some w
    | none => none) = some v
  rw [envGet_envSet_self]

/-- C5: counterexample.  Executing `export K='a b'` (sync on, exit 0, no
dump) records `K = "a"`, not the claimed quote-stripped `"a b"`: the bare
pattern runs after the quoted ones and re-captures `'a` from the same text,
whose quote-stripping leaves `a`. -/
theorem c5_counterexample :
    Shell.getenv (Shell.execute shellA c5cmd false true
        (OneShotOutcome.completed 0 "" "") 0 none).2 "K" = some "a" ∧
      ¬ Shell.getenv (Shell.execute shellA c5cmd false true
        (OneShotOutcome.completed 0 "" "") 0 none).2 "K" = some "a b" := by
  constructor
  · rfl
  · decide

/-- C5 (amended): for `export K='V'` with a word-character key and a value
free of whitespace and quote characters, executed with environment sync
enabled, a successful run (exit 0) whose authoritative dump is either
absent or consistent with the prediction leaves `getenv K` equal to `V`
with the quotes stripped and each `$NAME`/`${NAME}` reference expanded
against the pre-execution environment, undefined references staying
verbatim (all of which `expandEnvVars` embodies). -/
theorem c5_amended (sh : Shell) (K V : List Char) (out err : String)
    (d : Nat) (dump : Option (List String))
    (hopen : sh.closed = false) (hwf : EnvWF sh.env)
    (hK : goodKey K) (hV : goodVal V)
    (hdump : dump = none ∨ dump = some (envLines
      (envSet sh.env (String.mk K) (String.mk (expandEnvVars sh.env V))))) :
    Shell.getenv
      (Shell.execute sh
        (String.mk (renderSeg { form := QuoteForm.single, key := K, value := V }))
        false true (OneShotOutcome.completed 0 out err) d dump).2
      (String.mk K) = some (String.mk (expandEnvVars sh.env V)) := by
  generalize hc : String.mk (renderSeg { form := QuoteForm.single, key := K, value := V }) = cmd
  have hparse : parseExportCommand sh.env cmd =
      [(String.mk K, String.mk (expandEnvVars sh.env V))] := by
    rw [← hc]
    exact c5_parse sh.env K V hK hV
  have henv1 : envUpdate sh.env (parseExportCommand sh.env cmd) =
      envSet sh.env (String.mk K) (String.mk (expandEnvVars sh.env V)) := by
    rw [hparse]
    rfl
  have hexec : (Shell.execute sh cmd false true (OneShotOutcome.completed 0 out err) d dump).2 =
      { sh with env := syncFromDump (envUpdate sh.env (parseExportCommand sh.env cmd)) dump } := by
    unfold Shell.execute
    rw [hopen]
    rfl
  rw [hexec]
  show Shell.getenv
      { sh with env := syncFromDump (envUpdate sh.env (parseExportCommand sh.env cmd)) dump }
      (String.mk K) = some (String.mk (expandEnvVars sh.env V))
  rw [henv1]
  have hkeq : ∀ c ∈ (String.mk K).toList, ¬(c = '=') := by
    intro c hc hce
    have hw := hK.2 c hc
    rw [hce] at hw
    exact absurd hw (by decide)
  rcases hdump with rfl | rfl
  · exact getenv_set_env sh sh.env (String.mk K) (String.mk (expandEnvVars sh.env V))
  · have hwfset : EnvWF (envSet sh.env (String.mk K)
        (String.mk (expandEnvVars sh.env V))) :=
      EnvWF_envSet sh.env (String.mk K) (String.mk (expandEnvVars sh.env V)) hwf hkeq
    rw [syncFromDump_envLines _ hwfset]
    exact getenv_set_env sh sh.env (String.mk K) (String.mk (expandEnvVars sh.env V))

/-- Witness for C5 (amended): on a shell holding `OTHER=o`, executing
`export K=$OTHER-suffix` in single quotes records `K = "o-suffix"`. -/
theorem c5_amended_witness :
    shellO.closed = false ∧
    Shell.getenv (Shell.execute shellO
        (String.mk (renderSeg { form := QuoteForm.single, key := c5K, value := c5V }))
        false true (OneShotOutcome.completed 0 "" "") 0 none).2
      (String.mk c5K) = some (String.mk (expandEnvVars shellO.env c5V)) ∧
    String.mk (expandEnvVars shellO.env c5V) = "o-suffix" := by
  refine ⟨rfl, ?_, by decide⟩
  exact c5_amended shellO c5K c5V "" "" 0 none rfl (by decide) (by decide)
    (by decide) (Or.inl rfl)
